import Mathlib

/-!
Verification development for the studio_project_manager repository.

The Python source (src/db_manager.py, src/utilities.py) is shallowly embedded
below.  Machine integers are modelled as Int/Nat, Python floats as exact
fractions (every float the code produces is an exact decimal or dyadic
rational, held in the PyF structure), Python exceptions as Option
(none = the exception propagates), and the SQLAlchemy session/SQLite store as
an explicit Catalog value with an explicit commit point that enforces the
uniqueness constraints declared on the models (file_hash unique, primary key
unique, Plugin (name, version) unique, Sample path unique).
-/

/-! ### Basic character/string utilities (kernel-reducible, List Char based) -/

/-- Numeric value of a decimal digit character. -/
def digitVal (c : Char) : Nat := c.toNat - 48

/-- Natural number denoted by a list of decimal digit characters. -/
def natOfDigits (cs : List Char) : Nat :=
  cs.foldl (fun a c => a * 10 + digitVal c) 0

/-- Python int(s): optional sign followed by a nonempty digit string.
(Leading/trailing whitespace and underscores accepted by Python are not
exercised by any input in this development.) -/
def parseInt (s : String) : Option Int :=
  match s.toList with
  | [] => none
  | '-' :: rest =>
      if rest ≠ [] ∧ rest.all Char.isDigit then some (-(natOfDigits rest : Int)) else none
  | '+' :: rest =>
      if rest ≠ [] ∧ rest.all Char.isDigit then some ((natOfDigits rest : Int)) else none
  | cs =>
      if cs.all Char.isDigit then some ((natOfDigits cs : Int)) else none

/-- Exact fraction representing a Python float value.  Every float produced
by the embedded code is an exact decimal or dyadic rational, so this
representation is lossless; denominators are positive by construction. -/
structure PyF where
  num : Int
  den : Nat
deriving DecidableEq

/-- Rational value of a PyF (used in statements, never evaluated by the
kernel). -/
def pyVal (x : PyF) : ℚ := (x.num : ℚ) / (x.den : ℚ)

/-- Python float equality (value comparison). -/
def pyEq (a b : PyF) : Bool := decide (a.num * (b.den : Int) = b.num * (a.den : Int))

/-- Python float order (valid since denominators are positive). -/
def pyLe (a b : PyF) : Bool := decide (a.num * (b.den : Int) ≤ b.num * (a.den : Int))

/-- Python truthiness of a float: 0.0 is falsy. -/
def pyIsZero (x : PyF) : Bool := decide (x.num = 0)

/-- Float multiplication. -/
def pyMul (a b : PyF) : PyF := ⟨a.num * b.num, a.den * b.den⟩

/-- Multiplication by an integer. -/
def pyMulInt (a : PyF) (n : Int) : PyF := ⟨a.num * n, a.den⟩

/-- Division by an integer; Python raises ZeroDivisionError on zero. -/
def pyDivInt (a : PyF) (n : Int) : Option PyF :=
  if n = 0 then none
  else some ⟨if n < 0 then -a.num else a.num, a.den * n.natAbs⟩

/-- Float division; Python raises ZeroDivisionError on a zero divisor. -/
def pyDivO (a b : PyF) : Option PyF :=
  if b.num = 0 then none
  else some ⟨if b.num < 0 then -(a.num * (b.den : Int)) else a.num * (b.den : Int),
             a.den * b.num.natAbs⟩

/-- max over a list of floats with seed (Python max on a nonempty list). -/
def pyMaxList (x : PyF) (l : List PyF) : PyF :=
  l.foldl (fun a b => if pyLe a b then b else a) x

/-- Python float(s) restricted to plain decimal notation (optional sign,
digits, optional fractional part); every float literal in the repository's
data takes this form. -/
def parseFloat (s : String) : Option PyF :=
  match s.toList with
  | [] => none
  | cs =>
    let (sgn, cs2) : Int × List Char :=
      match cs with
      | '-' :: r => (-1, r)
      | '+' :: r => (1, r)
      | r => (1, r)
    let ip := cs2.takeWhile (fun c => decide (c ≠ '.'))
    let rest := cs2.dropWhile (fun c => decide (c ≠ '.'))
    match rest with
    | [] =>
        if ip ≠ [] ∧ ip.all Char.isDigit then some ⟨sgn * (natOfDigits ip : Int), 1⟩ else none
    | _ :: fp =>
        if fp.all (fun c => decide (c ≠ '.')) ∧ ip.all Char.isDigit ∧ fp.all Char.isDigit
            ∧ (ip ≠ [] ∨ fp ≠ []) then
          some ⟨sgn * ((natOfDigits ip * 10 ^ fp.length + natOfDigits fp : Nat) : Int),
                10 ^ fp.length⟩
        else none

/-- Python round(x, 6) modelled as rounding half up at six decimals (no value
in this development sits on a tie, so the half-even detail is immaterial). -/
def round6 (x : PyF) : PyF :=
  ⟨Int.fdiv (2 * (x.num * 1000000) + (x.den : Int)) (2 * (x.den : Int)), 1000000⟩

/-- text.replace('\t', '').replace('\n', '') from update_samples. -/
def removeTabsNewlines (cs : List Char) : List Char :=
  cs.filter (fun c => decide (c ≠ '\t') && decide (c ≠ '\n'))

/-- Does a character list begin with the two characters "._" (the sidecar
marker tested by filter_als_files)? -/
def startsWithDU (cs : List Char) : Bool :=
  match cs with
  | a :: b :: _ => decide (a = '.') && decide (b = '_')
  | _ => false

/-- pathlib stem of a file name, as character lists: drop the suffix when the
last dot sits strictly inside the name (CPython: 0 < i < len(name)-1). -/
def stemChars (cs : List Char) : List Char :=
  match cs.reverse.dropWhile (fun c => decide (c ≠ '.')) with
  | [] => cs
  | [_] => cs
  | _ :: rest =>
      if cs.reverse.takeWhile (fun c => decide (c ≠ '.')) = [] then cs else rest.reverse

/-- pathlib suffix of a file name, as character lists. -/
def suffixChars (cs : List Char) : List Char :=
  match cs.reverse.dropWhile (fun c => decide (c ≠ '.')) with
  | [] => []
  | [_] => []
  | _ :: _ =>
      let post := cs.reverse.takeWhile (fun c => decide (c ≠ '.'))
      if post = [] then [] else '.' :: post.reverse

/-- Final path component (pathlib .name); both separators are recognised, as
pathlib does on Windows where the repository runs. -/
def lastComponent (p : String) : String :=
  String.mk ((p.toList.reverse.takeWhile
    (fun c => decide (c ≠ '/') && decide (c ≠ '\\'))).reverse)

/-- pathlib.Path(p).stem -/
def pathStem (p : String) : String := String.mk (stemChars (lastComponent p).toList)

/-- pathlib.Path(p).name -/
def pathName (p : String) : String := lastComponent p

/-- pathlib.Path(p).suffix -/
def pathSuffix (p : String) : String := String.mk (suffixChars (lastComponent p).toList)

/-- First-occurrence-order deduplication (model of Python set contents; the
catalog operations below are insensitive to the iteration order of a set). -/
def dedupAux : List String → List String → List String
  | [], acc => acc.reverse
  | x :: r, acc => if x ∈ acc then dedupAux r acc else dedupAux r (x :: acc)

/-- Deduplicate a list keeping first occurrences. -/
def dedupFirst (l : List String) : List String := dedupAux l []

/-- All elements pairwise distinct. -/
def allDistinct [DecidableEq α] : List α → Bool
  | [] => true
  | x :: r => (decide (x ∉ r)) && allDistinct r

/-! ### XML model (xml.etree.ElementTree fragment used by the source) -/

/-- An XML element: tag, attributes, text, children. -/
inductive XElem where
  | mk : String → List (String × String) → Option String → List XElem → XElem

/-- Tag of an element. -/
def XElem.tag : XElem → String
  | .mk t _ _ _ => t

/-- Attribute list of an element. -/
def XElem.attrs : XElem → List (String × String)
  | .mk _ a _ _ => a

/-- Text of an element. -/
def XElem.text : XElem → Option String
  | .mk _ _ s _ => s

/-- Children of an element. -/
def XElem.children : XElem → List XElem
  | .mk _ _ _ c => c

/-- elem.get(key) / elem.attrib lookup. -/
def attrOf (e : XElem) (k : String) : Option String :=
  (e.attrs.find? (fun kv => decide (kv.1 = k))).map (fun kv => kv.2)

mutual
/-- elem.iter(): the element followed by all descendants in document order. -/
def iterAll : XElem → List XElem
  | .mk t a s c => .mk t a s c :: iterAllL c
/-- iterAll over a list of elements, in order. -/
def iterAllL : List XElem → List XElem
  | [] => []
  | e :: es => iterAll e ++ iterAllL es
end

/-- root.iter(tag): matching elements in document order (root included). -/
def iterTag (e : XElem) (t : String) : List XElem :=
  (iterAll e).filter (fun x => decide (x.tag = t))

/-- All strict descendants in document order (ElementTree ".//"). -/
def descendants (e : XElem) : List XElem := iterAllL e.children

/-- findall over a slash-separated child path (list of tags). -/
def findallPath (e : XElem) : List String → List XElem
  | [] => [e]
  | t :: ts =>
      (e.children.filter (fun c => decide (c.tag = t))).foldr
        (fun c acc => findallPath c ts ++ acc) []

/-- elem.find over a child path: first match in document order. -/
def findPath1 (e : XElem) (ts : List String) : Option XElem :=
  (findallPath e ts).head?

/-- Python ElementTree truth value of an optional element: None is falsy and
an element is truthy exactly when it has children (Element.__len__ based,
which is what `if root_note_elem and scale_name_elem:` evaluates). -/
def truthyElem : Option XElem → Bool
  | none => false
  | some e => !e.children.isEmpty

/-! ### Field decoders from db_manager.py -/

/-- get_note_symbol: the fixed pitch-class table indexed by number mod 12. -/
def noteNames : List String :=
  ["C", "C#/Db", "D", "D#/Eb", "E", "F", "F#/Gb", "G", "G#/Ab", "A", "A#/Bb", "B"]

/-- get_note_symbol(number) = notes[number % 12]. -/
def get_note_symbol (n : Int) : String := noteNames.getD (n.emod 12).toNat "C"

/-- AbletonLiveSet._decode_numerator. -/
def decode_numerator (v : Int) : Int :=
  if v < 0 then 1 else if v < 99 then v + 1 else v.emod 99 + 1

/-- Python 2 ** e for an integer exponent, as an exact value (a float when
the exponent is negative). -/
def pyPow2 (e : Int) : PyF :=
  if 0 ≤ e then ⟨2 ^ e.toNat, 1⟩ else ⟨1, 2 ^ (-e).toNat⟩

/-- AbletonLiveSet._decode_denominator: multiple = v // 99 + 1 (Python floor
division) and the result is 2 ** (multiple - 1). -/
def decode_denominator (v : Int) : PyF :=
  pyPow2 (Int.fdiv v 99 + 1 - 1)

/-- Occurrence count of a string in a list. -/
def countEq (l : List String) (x : String) : Nat :=
  (l.filter (fun y => decide (y = x))).length

/-- find_most_frequent: Counter order is first-insertion order, most_common
is a stable sort by descending count; if the top and bottom counts agree the
first element of the original list is returned, otherwise the top key. -/
def find_most_frequent (l : List String) : Option String :=
  match l with
  | [] => none
  | x :: _ =>
      let keys := dedupFirst l
      let cnts := keys.map (countEq l)
      let mx := cnts.foldl max 0
      let mn := cnts.foldl min (countEq l x)
      if mx = mn then some x
      else some ((keys.find? (fun k => decide (countEq l k = mx))).getD x)

/-! ### Hex and UTF-16 decoding for legacy sample paths -/

/-- Hex digit predicate. -/
def isHexDigit (c : Char) : Bool :=
  (decide ('0' ≤ c) && decide (c ≤ '9')) ||
  (decide ('a' ≤ c) && decide (c ≤ 'f')) ||
  (decide ('A' ≤ c) && decide (c ≤ 'F'))

/-- Value of a hex digit. -/
def hexVal (c : Char) : Nat :=
  if decide ('0' ≤ c) && decide (c ≤ '9') then c.toNat - 48
  else if decide ('a' ≤ c) && decide (c ≤ 'f') then c.toNat - 87
  else c.toNat - 55

/-- ASCII whitespace accepted by bytes.fromhex between byte pairs. -/
def isPySpace (c : Char) : Bool :=
  c ∈ [' ', '\t', '\n', '\r', '\x0b', '\x0c']

/-- bytes.fromhex: ASCII whitespace may separate two-digit byte pairs but the
two digits of one byte must be adjacent; anything else raises ValueError. -/
def fromhex : List Char → Option (List Nat)
  | [] => some []
  | c :: rest =>
      if isPySpace c then fromhex rest
      else if isHexDigit c then
        match rest with
        | [] => none
        | d :: rest2 =>
            if isHexDigit d then (fromhex rest2).map (fun bs => (16 * hexVal c + hexVal d) :: bs)
            else none
      else none

/-- Pair bytes into 16-bit units; odd byte counts raise (truncated data). -/
def bytesToUnits (le : Bool) : List Nat → Option (List Nat)
  | [] => some []
  | [_] => none
  | a :: b :: r =>
      (bytesToUnits le r).map (fun us => (if le then a + 256 * b else 256 * a + b) :: us)

/-- Combine UTF-16 code units into scalar values; unpaired surrogates raise. -/
def combineUnits : List Nat → Option (List Nat)
  | [] => some []
  | u :: r =>
      if 0xD800 ≤ u ∧ u < 0xDC00 then
        match r with
        | [] => none
        | v :: r2 =>
            if 0xDC00 ≤ v ∧ v < 0xE000 then
              (combineUnits r2).map (fun cs => (0x10000 + (u - 0xD800) * 0x400 + (v - 0xDC00)) :: cs)
            else none
      else if 0xDC00 ≤ u ∧ u < 0xE000 then none
      else (combineUnits r).map (fun cs => u :: cs)

/-- Python's "utf-16" codec: a leading byte-order mark selects the byte order
and is consumed; without one the data is decoded little-endian. -/
def pyUtf16Decode (bs : List Nat) : Option (List Nat) :=
  match bs with
  | 0xFF :: 0xFE :: rest => (bytesToUnits true rest).bind combineUnits
  | 0xFE :: 0xFF :: rest => (bytesToUnits false rest).bind combineUnits
  | _ => (bytesToUnits true bs).bind combineUnits

/-- Code points to a string. -/
def stringOfCodes (cs : List Nat) : String := String.mk (cs.map Char.ofNat)

/-- The pre-11 sample path pipeline of update_samples: strip tabs and
newlines, bytes.fromhex, decode with the utf-16 codec, strip U+0000. -/
def decodeSamplePath (text : String) : Option String :=
  ((fromhex (removeTabsNewlines text.toList)).bind pyUtf16Decode).map
    (fun cs => String.mk ((cs.map Char.ofNat).filter (fun c => decide (c ≠ '\x00'))))

/-- Modelled from the spec's words for comparison in claim C5: strip ALL
whitespace and tabs, decode as a strict hexadecimal byte string, decode the
bytes as little-endian UTF-16 (no byte-order-mark handling), strip U+0000. -/
def specDecodeSamplePath (text : String) : Option String :=
  let stripped := text.toList.filter (fun c => !(isPySpace c))
  (((fromhex stripped).bind (bytesToUnits true)).bind combineUnits).map
    (fun cs => String.mk ((cs.map Char.ofNat).filter (fun c => decide (c ≠ '\x00'))))

/-! ### Pure extraction functions over the XML tree (update_key, tempo,
time signature, furthest bar, samples, plugins) -/

/-- Insertion-ordered dictionary write: scale_dict[k] = v (later writes for
the same key overwrite the value, key order is first-insertion order, as for
a Python dict). -/
def dictInsert (acc : List (String × String)) (k v : String) : List (String × String) :=
  if acc.any (fun kv => decide (kv.1 = k)) then
    acc.map (fun kv => if decide (kv.1 = k) then (k, v) else kv)
  else acc ++ [(k, v)]

/-- The MidiClip loop of update_key, accumulating scale_dict.  None models an
uncaught exception (missing Value attribute or unparseable RootNote). -/
def scaleDictLoop : List XElem → List (String × String) → Option (List (String × String))
  | [], acc => some acc
  | clip :: rest, acc =>
      match clip.children.find? (fun c => decide (c.tag = "IsInKey")) with
      | none => scaleDictLoop rest acc
      | some ik =>
          match attrOf ik "Value" with
          | none => none
          | some v =>
              if v ≠ "true" then scaleDictLoop rest acc
              else
                match clip.children.find? (fun c => decide (c.tag = "ScaleInformation")) with
                | none => scaleDictLoop rest acc
                | some si =>
                    let rn := si.children.find? (fun c => decide (c.tag = "RootNote"))
                    let sn := si.children.find? (fun c => decide (c.tag = "Name"))
                    if truthyElem rn && truthyElem sn then
                      match rn with
                      | none => none
                      | some rne =>
                          match attrOf rne "Value" with
                          | none => none
                          | some rv =>
                              match parseInt rv with
                              | none => none
                              | some n =>
                                  match sn with
                                  | none => none
                                  | some sne =>
                                      match attrOf sne "Value" with
                                      | none => none
                                      | some sv =>
                                          scaleDictLoop rest
                                            (dictInsert acc (get_note_symbol n) sv)
                    else scaleDictLoop rest acc

/-- update_key as a pure function of major_version and the XML root; None
models an uncaught exception, some k a normal return with key k.  Note the
falsy check on major_version (None or 0) and the truthiness test
`if root_note_elem and scale_name_elem` on the elements themselves. -/
def keyOf (mv : Option Int) (xml : Option XElem) : Option String :=
  match mv with
  | none => some "Unknown"
  | some m =>
      if m = 0 then some "Unknown"
      else if m < 11 then some "Unknown"
      else
        match xml with
        | none => none
        | some root =>
            (scaleDictLoop (iterTag root "MidiClip") []).map (fun d =>
              match d.map (fun kv => kv.1 ++ " " ++ kv.2) with
              | [] => "Unknown"
              | x :: r => (find_most_frequent (x :: r)).getD "Unknown")

/-- The EnumEvent lookup and decode of update_time_signature. -/
def tsOf (root : XElem) : Option (Int × PyF) :=
  match (descendants root).find?
      (fun e => decide (e.tag = "EnumEvent") && decide (attrOf e "Time" = some "-63072000")) with
  | none => none
  | some ev =>
      match attrOf ev "Value" with
      | none => none
      | some s => (parseInt s).map (fun v => (decode_numerator v, decode_denominator v))

/-- Dotted tempo path for Live 9.7 and later. -/
def post10TempoPath : List String :=
  ["LiveSet", "MasterTrack", "DeviceChain", "Mixer", "Tempo", "Manual"]

/-- Dotted tempo path for older versions. -/
def pre10TempoPath : List String :=
  ["LiveSet", "MasterTrack", "MasterChain", "Mixer", "Tempo", "ArrangerAutomation",
   "Events", "FloatEvent"]

/-- The version-conditional tempo lookup of update_tempo; all of its failure
modes (ElementNotFound, float(None), float of a non-numeric string) are an
uncaught exception, modelled as none. -/
def tempoValueOf (v : Int × Int × Int) (root : XElem) : Option PyF :=
  let p := if decide (10 ≤ v.1) || (decide (9 ≤ v.1) && decide (7 ≤ v.2.1)) then
    post10TempoPath else pre10TempoPath
  ((findPath1 root p).bind (fun e => attrOf e "Value")).bind parseFloat

/-- float(e.get("Value")) over every CurrentEnd element. -/
def parseEnds : List XElem → Option (List PyF)
  | [] => some []
  | e :: r =>
      match (attrOf e "Value").bind parseFloat with
      | none => none
      | some q => (parseEnds r).map (fun l => q :: l)

/-- FileRef/Data child of a SampleRef. -/
def firstDataElem (e : XElem) : Option XElem := findPath1 e ["FileRef", "Data"]

/-- The pre-11 SampleRef loop: a missing Data element or a failed decode
skips the reference; a Data element with no text raises (the .replace call
sits outside the try block). -/
def collectOldPaths : List XElem → Option (List String)
  | [] => some []
  | e :: rest =>
      match firstDataElem e with
      | none => collectOldPaths rest
      | some d =>
          match d.text with
          | none => none
          | some t =>
              match decodeSamplePath t with
              | none => collectOldPaths rest
              | some p => (collectOldPaths rest).map (fun l => p :: l)

/-- The 11+ SampleRef loop: a missing Path element is skipped with a warning,
a Path element without a Value attribute raises KeyError. -/
def collectNewPaths : List XElem → Option (List String)
  | [] => some []
  | e :: rest =>
      match findPath1 e ["FileRef", "Path"] with
      | none => collectNewPaths rest
      | some pe =>
          match attrOf pe "Value" with
          | none => none
          | some v => (collectNewPaths rest).map (fun l => v :: l)

/-- The sample path set collected by update_samples (str(pathlib.Path(p)) is
modelled as the identity; no path in this development needs normalisation).
The set is modelled as a first-occurrence-ordered deduplicated list. -/
def samplePathsOf (major : Int) (root : XElem) : Option (List String) :=
  if major < 11 then (collectOldPaths (iterTag root "SampleRef")).map dedupFirst
  else (collectNewPaths (iterTag root "SampleRef")).map dedupFirst

/-- One plugin-name sweep of update_plugins: elements with no name child are
skipped, a name child without a Value attribute raises KeyError. -/
def collectPluginNames (sub : String) : List XElem → Option (List String)
  | [] => some []
  | e :: rest =>
      match e.children.find? (fun c => decide (c.tag = sub)) with
      | none => collectPluginNames sub rest
      | some n =>
          match attrOf n "Value" with
          | none => none
          | some v => (collectPluginNames sub rest).map (fun l => v :: l)

/-- Both plugin-name sets of update_plugins, (VST names, VST3 names); the
VST3 sweep runs first in the source, the VST loop is executed first. -/
def pluginNamesOf (root : XElem) : Option (List String × List String) :=
  match collectPluginNames "Name" (iterTag root "Vst3PluginInfo") with
  | none => none
  | some v3 =>
      match collectPluginNames "PlugName" (iterTag root "VstPluginInfo") with
      | none => none
      | some v => some (dedupFirst v, dedupFirst v3)

/-! ### The catalog store and the reconciler -/

/-- A plugins-table row. -/
structure PluginRow where
  id : Nat
  name : String
  version : String
  installed : Bool
deriving DecidableEq

/-- A samples-table row. -/
structure SampleRow where
  id : Nat
  path : String
  name : String
  is_present : Bool
deriving DecidableEq

/-- An ableton_live_sets row together with its two link sets (the ORM
relationship lists, holding plugin/sample primary keys). -/
structure ProjectRow where
  identifier : Nat
  uuid : Nat
  path : String
  file_hash : Option String
  last_scan_timestamp : Option Nat
  name : Option String
  creation_time : Option Nat
  last_modification_time : Option Nat
  xml_root : Option XElem
  creator : Option String
  major_version : Option Int
  minor_version : Option Int
  major_minor_patch : Option (Int × Int × Int)
  tempo : Option PyF
  key : Option String
  time_signature : Option (Int × PyF)
  furthest_bar : Option PyF
  estimated_duration : Option PyF
  pluginIds : List Nat
  sampleIds : List Nat

/-- The whole store, with the autoincrement counters.  uuid4 values are
modelled by a fresh counter (collisions of uuid4 are disregarded, so the
unique constraint on uuid is not checked at commit). -/
structure Catalog where
  projects : List ProjectRow
  plugins : List PluginRow
  samples : List SampleRow
  nextProjectId : Nat
  nextPluginId : Nat
  nextSampleId : Nat
  nextUuid : Nat

/-- The SQLAlchemy session: the in-memory (flushed but possibly uncommitted)
state together with the last committed state. -/
structure SessionState where
  cat : Catalog
  committed : Catalog

/-- query(AbletonLiveSet).filter_by(path=...).first() -/
def findRowByPath (c : Catalog) (p : String) : Option ProjectRow :=
  c.projects.find? (fun r => decide (r.path = p))

/-- query(AbletonLiveSet).filter_by(file_hash=...).first() -/
def findRowByHash (c : Catalog) (h : String) : Option ProjectRow :=
  c.projects.find? (fun r => decide (r.file_hash = some h))

/-- Row lookup by primary key. -/
def findRowById (c : Catalog) (pid : Nat) : Option ProjectRow :=
  c.projects.find? (fun r => decide (r.identifier = pid))

/-- In-place update of the row with the given primary key. -/
def modifyRow (c : Catalog) (pid : Nat) (g : ProjectRow → ProjectRow) : Catalog :=
  { c with projects := c.projects.map (fun r => if r.identifier = pid then g r else r) }

/-- query(Plugin).filter_by(name=..., version=...).first() -/
def findPlugin (c : Catalog) (nm ver : String) : Option PluginRow :=
  c.plugins.find? (fun q => decide (q.name = nm) && decide (q.version = ver))

/-- query(Sample).filter_by(path=...).first() -/
def findSample (c : Catalog) (p : String) : Option SampleRow :=
  c.samples.find? (fun s => decide (s.path = p))

/-- The uniqueness constraints declared on the models and enforced by SQLite
at flush/commit: primary keys, the unique file_hash column (NULLs exempt),
the Plugin (name, version) unique constraint and the unique Sample path. -/
def commitCheck (c : Catalog) : Bool :=
  allDistinct (c.projects.map (fun r => r.identifier)) &&
  allDistinct (c.projects.filterMap (fun r => r.file_hash)) &&
  allDistinct (c.plugins.map (fun q => (q.name, q.version))) &&
  allDistinct (c.samples.map (fun s => s.path))

/-- session.commit(): on success the in-memory state becomes durable; a
constraint violation raises IntegrityError (none), leaving the previously
committed state as the observable store. -/
def commitS (s : SessionState) : Option SessionState :=
  if commitCheck s.cat then some ⟨s.cat, s.cat⟩ else none

/-- Plugin.__init__: update_installation_status sets installed from the
module-lifetime installed-plugin list. -/
def mkPlugin (inst : List String) (pk : Nat) (nm ver : String) : PluginRow :=
  ⟨pk, nm, ver, decide (nm ∈ inst)⟩

/-- Append the plugin id to the project's relationship list when absent. -/
def linkPlugin (pid plid : Nat) (c : Catalog) : Catalog :=
  modifyRow c pid (fun r =>
    if plid ∈ r.pluginIds then r else { r with pluginIds := r.pluginIds ++ [plid] })

/-- One iteration of a plugin loop of update_plugins: look the plugin up by
(name, version), insert it when absent, and ensure the link exists. -/
def attach_plugin (inst : List String) (pid : Nat) (ver nm : String) (c : Catalog) : Catalog :=
  match findPlugin c nm ver with
  | some q => linkPlugin pid q.id c
  | none =>
      let c2 := { c with plugins := c.plugins ++ [mkPlugin inst c.nextPluginId nm ver],
                         nextPluginId := c.nextPluginId + 1 }
      linkPlugin pid c.nextPluginId c2

/-- Append the sample id to the project's relationship list when absent. -/
def linkSample (pid sid : Nat) (c : Catalog) : Catalog :=
  modifyRow c pid (fun r =>
    if sid ∈ r.sampleIds then r else { r with sampleIds := r.sampleIds ++ [sid] })

/-- One iteration of the sample loop of update_samples. -/
def attach_sample (pid : Nat) (p : String) (c : Catalog) : Catalog :=
  match findSample c p with
  | some sm => linkSample pid sm.id c
  | none =>
      let c2 := { c with samples := c.samples ++ [⟨c.nextSampleId, p, pathName p, true⟩],
                         nextSampleId := c.nextSampleId + 1 }
      linkSample pid c.nextSampleId c2

/-! ### The per-project extraction pipeline (parse_all) -/

/-- A project file as read from disk during one reconciliation pass: its
SHA-256 hex digest, its decompressed XML parse result (none = unreadable or
malformed), its filesystem timestamps (none = OSError), and the outcome of
the version regex on its Creator attribute (the regex engine itself is not
embedded; none models a Creator with no match, which raises IndexError). -/
structure ALSFile where
  hash : String
  xml : Option XElem
  ctime : Option Nat
  mtime : Option Nat
  creatorVersion : Option (Int × Int × Int)

/-- load_xml_data outcome: the parsed tree unless the path fails the .als
suffix test (the existence and is_file tests hold for a file the reconciler
has just hashed). -/
def xmlOf (p : String) (f : ALSFile) : Option XElem :=
  if pathSuffix p = ".als" then f.xml else none

/-- Python tuple comparison for version triples. -/
def verLt (a b : Int × Int × Int) : Bool :=
  decide (a.1 < b.1) ||
  (decide (a.1 = b.1) &&
    (decide (a.2.1 < b.2.1) || (decide (a.2.1 = b.2.1) && decide (a.2.2 < b.2.2))))

/-- update_name with no custom name: the file stem. -/
def update_name (r : ProjectRow) : ProjectRow :=
  { r with name := some (pathStem r.path) }

/-- update_creation_time: keep an existing value, else the file's ctime, else
now on OSError. -/
def update_creation_time (now : Nat) (f : ALSFile) (r : ProjectRow) : ProjectRow :=
  if r.creation_time.isSome then r
  else { r with creation_time := some (f.ctime.getD now) }

/-- update_last_modification_time: the file's mtime; on OSError keep an
existing value or fall back to now. -/
def update_last_modification_time (now : Nat) (f : ALSFile) (r : ProjectRow) : ProjectRow :=
  match f.mtime with
  | some t => { r with last_modification_time := some t }
  | none =>
      if r.last_modification_time.isNone then { r with last_modification_time := some now }
      else r

/-- update_file_times. -/
def update_file_times (now : Nat) (f : ALSFile) (r : ProjectRow) : ProjectRow :=
  update_last_modification_time now f (update_creation_time now f r)

/-- load_xml_data. -/
def load_xml_data (f : ALSFile) (r : ProjectRow) : ProjectRow :=
  { r with xml_root := xmlOf r.path f }

/-- load_version: reads the Creator attribute off the root (AttributeError on
a missing root, TypeError on a missing attribute, IndexError when the regex
finds nothing) and sets the three version fields. -/
def load_version (f : ALSFile) (r : ProjectRow) : Option ProjectRow :=
  match r.xml_root with
  | none => none
  | some root =>
      match attrOf root "Creator" with
      | none => none
      | some cs =>
          match f.creatorVersion with
          | none => none
          | some v =>
              some { r with creator := some cs, major_minor_patch := some v,
                            major_version := some v.1, minor_version := some v.2.1 }

/-- update_tempo with its above_version (8, 2, 0) guard; an unchanged value
(Python float equality) returns early without assignment. -/
def update_tempo (r : ProjectRow) : Option ProjectRow :=
  match r.major_minor_patch with
  | none => none
  | some v =>
      if verLt v (8, 2, 0) then some r
      else
        match r.xml_root with
        | none => none
        | some root =>
            match tempoValueOf v root with
            | none => none
            | some t =>
                match r.tempo with
                | some prev =>
                    if pyEq (round6 t) prev then some r
                    else some { r with tempo := some (round6 t) }
                | none => some { r with tempo := some (round6 t) }

/-- Beats per bar as read by update_furthest_bar: the stored time-signature
numerator, defaulting to 4 when the signature is unset. -/
def beatsPerBar (r : ProjectRow) : Int :=
  match r.time_signature with
  | some ts => ts.1
  | none => 4

/-- update_furthest_bar: max CurrentEnd over beats per bar, 0.0 with no
clips; a zero beats-per-bar raises ZeroDivisionError. -/
def update_furthest_bar (r : ProjectRow) : Option ProjectRow :=
  match r.xml_root with
  | none => none
  | some root =>
      match parseEnds (iterTag root "CurrentEnd") with
      | none => none
      | some ends =>
          match ends with
          | [] => some { r with furthest_bar := some ⟨0, 1⟩ }
          | x :: rest =>
              match pyDivInt (pyMaxList x rest) (beatsPerBar r) with
              | none => none
              | some fb => some { r with furthest_bar := some fb }

/-- update_key on the row. -/
def update_key_row (r : ProjectRow) : Option ProjectRow :=
  match keyOf r.major_version r.xml_root with
  | none => none
  | some k => some { r with key := some k }

/-- update_time_signature on the row. -/
def update_time_signature_row (r : ProjectRow) : Option ProjectRow :=
  match r.xml_root with
  | none => none
  | some root =>
      match tsOf root with
      | none => none
      | some ts => some { r with time_signature := some ts }

/-- calculate_duration: with a missing or falsy operand the method returns a
zero timedelta without assigning the field. -/
def calculate_duration (r : ProjectRow) : Option ProjectRow :=
  match r.time_signature, r.tempo, r.furthest_bar with
  | some ts, some t, some fb =>
      if pyIsZero t || pyIsZero fb then some r
      else
        match pyDivO (pyMulInt (pyMulInt fb ts.1) 60) t with
        | none => none
        | some d => some { r with estimated_duration := some d }
  | _, _, _ => some r

/-- generate_file_hash: rehash the file at the row's path (the same file the
reconciler just hashed). -/
def generate_file_hash (f : ALSFile) (r : ProjectRow) : ProjectRow :=
  { r with file_hash := some f.hash }

/-- Steps 1-6 of parse_all (everything before update_samples); these touch
only the row and perform no commit. -/
def rowPhase1 (now : Nat) (f : ALSFile) (r : ProjectRow) : Option ProjectRow :=
  match load_version f (load_xml_data f (update_file_times now f (update_name r))) with
  | none => none
  | some r4 =>
      match update_tempo r4 with
      | none => none
      | some r5 => update_furthest_bar r5

/-- Steps 9-12 of parse_all (everything after update_plugins). -/
def rowPhase2 (f : ALSFile) (r : ProjectRow) : Option ProjectRow :=
  match update_key_row r with
  | none => none
  | some r1 =>
      match update_time_signature_row r1 with
      | none => none
      | some r2 =>
          match calculate_duration r2 with
          | none => none
          | some r3 => some (generate_file_hash f r3)

/-- Apply a row transformation inside the session. -/
def liftRowStep (pid : Nat) (g : ProjectRow → Option ProjectRow) (s : SessionState) :
    Option SessionState :=
  match findRowById s.cat pid with
  | none => none
  | some r =>
      match g r with
      | none => none
      | some r2 => some { s with cat := modifyRow s.cat pid (fun _ => r2) }

/-- update_samples: collect the (deduplicated) sample paths, do nothing when
the set is empty (the early branch performs no commit), otherwise attach each
and commit. -/
def update_samples_step (pid : Nat) (s : SessionState) : Option SessionState :=
  match findRowById s.cat pid with
  | none => none
  | some r =>
      match r.major_minor_patch with
      | none => none
      | some v =>
          match r.xml_root with
          | none => none
          | some root =>
              match samplePathsOf v.1 root with
              | none => none
              | some paths =>
                  match paths with
                  | [] => some s
                  | _ :: _ =>
                      commitS { s with
                        cat := paths.foldl (fun c p => attach_sample pid p c) s.cat }

/-- update_plugins: collect both name sets, attach every VST name then every
VST3 name, commit. -/
def update_plugins_step (inst : List String) (pid : Nat) (s : SessionState) :
    Option SessionState :=
  match findRowById s.cat pid with
  | none => none
  | some r =>
      match r.xml_root with
      | none => none
      | some root =>
          match pluginNamesOf root with
          | none => none
          | some nv =>
              let c1 := nv.1.foldl (fun c nm => attach_plugin inst pid "VST" nm c) s.cat
              let c2 := nv.2.foldl (fun c nm => attach_plugin inst pid "VST3" nm c) c1
              commitS { s with cat := c2 }

/-- parse_all: the twelve extraction steps in source order, with the two
commits performed inside update_samples and update_plugins.  On an uncaught
exception the observable store is the last committed state. -/
def parse_all (inst : List String) (now : Nat) (f : ALSFile) (pid : Nat) (s : SessionState) :
    SessionState × Bool :=
  match liftRowStep pid (rowPhase1 now f) s with
  | none => (⟨s.committed, s.committed⟩, false)
  | some s1 =>
      match update_samples_step pid s1 with
      | none => (⟨s1.committed, s1.committed⟩, false)
      | some s2 =>
          match update_plugins_step inst pid s2 with
          | none => (⟨s2.committed, s2.committed⟩, false)
          | some s3 =>
              match liftRowStep pid (rowPhase2 f) s3 with
              | none => (⟨s3.committed, s3.committed⟩, false)
              | some s4 => (s4, true)

/-- A freshly constructed AbletonLiveSet (its __init__). -/
def newRow (pid uu : Nat) (p : String) : ProjectRow :=
  ⟨pid, uu, p, none, none, none, none, none, none, none, none, none, none, none, none,
   none, none, none, [], []⟩

/-- The final hash assignment of process_file on the parsed row. -/
def withHash (h : String) : ProjectRow → ProjectRow :=
  fun r => { r with file_hash := some h }

/-- process_file: hash the observed file, look the catalog up by path then by
hash, and apply the decision table.  The Bool records whether the pass ran to
a successful final commit; on failure the returned catalog is the state the
store was left in (the last successful commit). -/
def process_file (inst : List String) (now : Nat) (path : String) (f : ALSFile)
    (c : Catalog) : Catalog × Bool :=
  match findRowByPath c path with
  | some row =>
      match parse_all inst now f row.identifier ⟨c, c⟩ with
      | (s1, true) =>
          match commitS { s1 with
              cat := modifyRow s1.cat row.identifier (withHash f.hash) } with
          | some s2 => (s2.committed, true)
          | none => (s1.committed, false)
      | (s1, false) => (s1.committed, false)
  | none =>
      match findRowByHash c f.hash with
      | some row =>
          let c1 := modifyRow c row.identifier (fun r => { r with path := path })
          if commitCheck c1 then (c1, true) else (c, false)
      | none =>
          let r0 := newRow c.nextProjectId c.nextUuid path
          let cadd := { c with projects := c.projects ++ [r0],
                               nextProjectId := c.nextProjectId + 1,
                               nextUuid := c.nextUuid + 1 }
          match parse_all inst now f r0.identifier ⟨cadd, c⟩ with
          | (s1, true) =>
              match commitS { s1 with
                  cat := modifyRow s1.cat r0.identifier (withHash f.hash) } with
              | some s2 => (s2.committed, true)
              | none => (s1.committed, false)
          | (s1, false) => (s1.committed, false)

/-- A sequence of reconciliation passes (the loop of initial_scan / the
watcher's dispatch); an uncaught exception aborts the loop, leaving the store
at its last committed state. -/
def runEvents (inst : List String) (now : Nat) : List (String × ALSFile) → Catalog → Catalog
  | [], c => c
  | (p, f) :: rest, c =>
      match process_file inst now p f c with
      | (c2, true) => runEvents inst now rest c2
      | (c2, false) => c2

/-- An empty store. -/
def emptyCatalog : Catalog := ⟨[], [], [], 0, 0, 0, 0⟩

/-! ### The path scanner (utilities.py) -/

/-- What the input path denotes on disk (is_file / is_dir / neither). -/
inductive FsKind where
  | file
  | dir
  | other

/-- filter_als_files: reject a path when a parent component equals the
literal Backup or backup, or when the file stem begins with "._". -/
def filter_als_files (files : List (List String)) : List (List String) :=
  files.filter (fun f =>
    (decide ("Backup" ∉ f.dropLast) && decide ("backup" ∉ f.dropLast)) &&
    !(startsWithDU (stemChars (f.getLastD "").toList)))

/-- get_als_paths over an abstract filesystem: paths are component lists, and
the glob/rglob enumeration of a directory input is supplied as `listing`.  A
file input must carry the .als suffix and is returned unfiltered; a directory
input is enumerated and filtered; anything else raises InvalidPathError. -/
def get_als_paths (parts : List String) (kind : FsKind) (searchSub : Bool)
    (listing : List (List String)) : Except String (List (List String)) :=
  match kind with
  | .file =>
      if pathSuffix (parts.getLastD "") ≠ ".als" then Except.error "InvalidPathError"
      else Except.ok [parts]
  | .dir =>
      match searchSub with
      | _ => Except.ok (filter_als_files listing)
  | .other => Except.error "InvalidPathError"

/-! ### Shared lemmas -/

/-- Value of a Python power of two, as a rational. -/
theorem pyVal_pyPow2 (e : Int) : pyVal (pyPow2 e) = (2 : ℚ) ^ e := by
  unfold pyPow2 pyVal
  split
  case isTrue h =>
      push_cast
      rw [div_one, ← zpow_natCast (2 : ℚ) e.toNat, Int.toNat_of_nonneg h]
  case isFalse h =>
      push_cast
      rw [one_div, ← zpow_natCast (2 : ℚ) (-e).toNat, Int.toNat_of_nonneg (by omega),
        ← zpow_neg, neg_neg]

/-- For a name carrying the ".als" suffix, the "._" test on the pathlib stem
agrees with the "._" test on the full name. -/
theorem stem_du_bridge (x : List Char) :
    startsWithDU (stemChars (x ++ ['.', 'a', 'l', 's'])) =
      startsWithDU (x ++ ['.', 'a', 'l', 's']) := by
  match x with
  | [] => decide
  | [a] =>
      simp [stemChars, startsWithDU, List.dropWhile, List.takeWhile]
  | a :: b :: r =>
      rcases hx : (a :: b :: r).reverse with _ | ⟨y, ys⟩
      · simp at hx
      · have hyy : (y :: ys).reverse = a :: b :: r := by rw [← hx, List.reverse_reverse]
        unfold stemChars
        have hrev : ((a :: b :: r) ++ ['.', 'a', 'l', 's']).reverse =
            's' :: 'l' :: 'a' :: '.' :: (a :: b :: r).reverse := by simp
        rw [hrev, hx]
        simp [List.dropWhile, List.takeWhile, hyy, startsWithDU]

/-! ### Claim C2 -/

/-- C2: the time-signature decoders satisfy the spec's laws: for 0 ≤ v < 99
the numerator is v + 1; for v ≥ 99 it is (v mod 99) + 1; for v < 0 it is 1;
and the denominator is 2 ^ (v div 99) (Python floor division), stated both
structurally (as the exact power-of-two value) and as a rational. -/
theorem C2_time_signature_decoder_laws :
    (∀ v : Int, 0 ≤ v → v < 99 → decode_numerator v = v + 1) ∧
    (∀ v : Int, 99 ≤ v → decode_numerator v = v.emod 99 + 1) ∧
    (∀ v : Int, v < 0 → decode_numerator v = 1) ∧
    (∀ v : Int, decode_denominator v = pyPow2 (Int.fdiv v 99)) ∧
    (∀ v : Int, pyVal (decode_denominator v) = (2 : ℚ) ^ (Int.fdiv v 99)) := by
  have hden : ∀ v : Int, decode_denominator v = pyPow2 (Int.fdiv v 99) := by
    intro v
    unfold decode_denominator
    congr 1
    omega
  refine ⟨?_, ?_, ?_, hden, ?_⟩
  · intro v h0 h99
    unfold decode_numerator
    rw [if_neg (by omega), if_pos h99]
  · intro v h
    unfold decode_numerator
    rw [if_neg (by omega), if_neg (by omega)]
  · intro v h
    unfold decode_numerator
    rw [if_pos h]
  · intro v
    rw [hden v, pyVal_pyPow2]

/-- C2 witness: the laws instantiated at 42, 200 and -5. -/
theorem C2_time_signature_decoder_laws_witness :
    decode_numerator 42 = 42 + 1 ∧ decode_numerator 200 = Int.emod 200 99 + 1 ∧
    decode_numerator (-5) = 1 ∧ decode_denominator 200 = pyPow2 (Int.fdiv 200 99) :=
  ⟨C2_time_signature_decoder_laws.1 42 (by decide) (by decide),
   C2_time_signature_decoder_laws.2.1 200 (by decide),
   C2_time_signature_decoder_laws.2.2.1 (-5) (by decide),
   C2_time_signature_decoder_laws.2.2.2.1 200⟩

/-! ### Claim C3 -/

/-- A version-11 project containing exactly one MidiClip, in key, with root
note 0 (C) and scale name Minor, both stored as childless elements exactly as
Ableton serialises them. -/
def keyFixtureRoot : XElem :=
  .mk "Ableton" [("Creator", "Ableton Live 11.0.0")] none
    [.mk "LiveSet" [] none
      [.mk "MidiClip" [] none
        [.mk "IsInKey" [("Value", "true")] none [],
         .mk "ScaleInformation" [] none
           [.mk "RootNote" [("Value", "0")] none [],
            .mk "Name" [("Value", "Minor")] none []]]]]

/-- C3: the claim (and the spec, and update_key's own docstring) promises the
accumulated string "C Minor" for this project, but the guard
`if root_note_elem and scale_name_elem:` tests ElementTree truthiness, which
is False for childless elements, so the clip is skipped and the key falls
back to "Unknown".  (Additionally, scale_dict is keyed by root note, so
clip-level frequencies can never be observed.)  The code contradicts its
documented intent; evaluated at the failing input the key is "Unknown". -/
theorem C3_key_extractor_failing_input :
    keyOf (some 11) (some keyFixtureRoot) = some "Unknown" ∧ "Unknown" ≠ "C Minor" := by
  decide

/-! ### Claim C10 -/

/-- C10: a file input with suffix .als is returned as a singleton list, with
no Backup or sidecar filtering applied (the listing and recursion flag are
irrelevant). -/
theorem C10_file_input_bypasses_filters (parts : List String) (sub : Bool)
    (listing : List (List String))
    (h : pathSuffix (parts.getLastD "") = ".als") :
    get_als_paths parts .file sub listing = Except.ok [parts] := by
  unfold get_als_paths
  rw [if_neg (fun hc => hc h)]

/-- C10 witness: a file inside a Backup directory whose name begins with "._"
is still returned when passed directly. -/
theorem C10_file_input_bypasses_filters_witness :
    get_als_paths ["C:", "Backup", "._hidden.als"] .file true [] =
      Except.ok [["C:", "Backup", "._hidden.als"]] :=
  C10_file_input_bypasses_filters _ _ _ (by decide)

/-! ### Claim C8 -/

/-- No parent component of the path equals the literal Backup or backup. -/
def noBackupParent (q : List String) : Prop :=
  "Backup" ∉ q.dropLast ∧ "backup" ∉ q.dropLast

/-- The file name (last component) begins with "._". -/
def sidecarName (q : List String) : Prop :=
  startsWithDU (q.getLastD "").toList = true

/-- C8: for a directory scan every path in the output satisfies both filter
rules (no Backup/backup parent component, file name not beginning with "._"),
and every enumerated .als path violating either rule is rejected.  The
enumeration is the glob result, so every listed name carries the .als
suffix. -/
theorem C8_scanner_filter_rules (parts : List String) (sub : Bool)
    (listing : List (List String)) (out : List (List String))
    (hals : ∀ q ∈ listing, ∃ x, (q.getLastD "").toList = x ++ ['.', 'a', 'l', 's'])
    (hout : get_als_paths parts .dir sub listing = Except.ok out) :
    (∀ q ∈ out, noBackupParent q ∧ ¬ sidecarName q) ∧
    (∀ q ∈ listing, (¬ noBackupParent q ∨ sidecarName q) → q ∉ out) := by
  have hfo : out = filter_als_files listing := by
    unfold get_als_paths at hout
    cases hout
    rfl
  subst hfo
  have hpred : ∀ q ∈ listing,
      ((decide ("Backup" ∉ q.dropLast) && decide ("backup" ∉ q.dropLast)) &&
        !(startsWithDU (stemChars (q.getLastD "").toList))) = true ↔
      (noBackupParent q ∧ ¬ sidecarName q) := by
    intro q hq
    obtain ⟨x, hx⟩ := hals q hq
    unfold noBackupParent sidecarName
    rw [hx, stem_du_bridge]
    simp
  constructor
  · intro q hq
    have hmem := List.mem_filter.mp hq
    exact (hpred q hmem.1).mp hmem.2
  · intro q hq hviol hmem
    have hmem2 := List.mem_filter.mp hmem
    have := (hpred q hq).mp hmem2.2
    rcases hviol with h | h
    · exact h this.1
    · exact this.2 h

/-- C8 witness: a concrete listing containing a Backup-shadowed file, a clean
file and a sidecar file; the clean file survives and the violators are
rejected. -/
theorem C8_scanner_filter_rules_witness :
    (∀ q ∈ filter_als_files
        [["root", "Backup", "a.als"], ["root", "song.als"], ["root", "._b.als"]],
      noBackupParent q ∧ ¬ sidecarName q) ∧
    ["root", "Backup", "a.als"] ∉ filter_als_files
        [["root", "Backup", "a.als"], ["root", "song.als"], ["root", "._b.als"]] ∧
    ["root", "._b.als"] ∉ filter_als_files
        [["root", "Backup", "a.als"], ["root", "song.als"], ["root", "._b.als"]] ∧
    ["root", "song.als"] ∈ filter_als_files
        [["root", "Backup", "a.als"], ["root", "song.als"], ["root", "._b.als"]] := by
  have hals : ∀ q ∈ [["root", "Backup", "a.als"], ["root", "song.als"], ["root", "._b.als"]],
      ∃ x, (q.getLastD "").toList = x ++ ['.', 'a', 'l', 's'] := by
    intro q hq
    simp only [List.mem_cons, List.not_mem_nil, or_false] at hq
    rcases hq with h | h | h
    · exact h ▸ ⟨['a'], by decide⟩
    · exact h ▸ ⟨['s', 'o', 'n', 'g'], by decide⟩
    · exact h ▸ ⟨['.', '_', 'b'], by decide⟩
  have h := C8_scanner_filter_rules ["root"] true
    [["root", "Backup", "a.als"], ["root", "song.als"], ["root", "._b.als"]]
    (filter_als_files
      [["root", "Backup", "a.als"], ["root", "song.als"], ["root", "._b.als"]])
    hals rfl
  refine ⟨h.1, ?_, ?_, ?_⟩
  · exact h.2 _ (by decide) (Or.inl (by unfold noBackupParent; decide))
  · exact h.2 _ (by decide) (Or.inr (by unfold sidecarName; decide))
  · decide

/-! ### Claim C5 -/

/-- Membership in dedupAux. -/
theorem dedupAux_mem (x : String) : ∀ (l acc : List String),
    x ∈ dedupAux l acc ↔ x ∈ l ∨ x ∈ acc := by
  intro l
  induction l with
  | nil => intro acc; simp [dedupAux]
  | cons y r ih =>
      intro acc
      unfold dedupAux
      by_cases hy : y ∈ acc
      · rw [if_pos hy, ih]
        constructor
        · rintro (h | h)
          · exact Or.inl (List.mem_cons_of_mem _ h)
          · exact Or.inr h
        · rintro (h | h)
          · rcases List.mem_cons.mp h with h2 | h2
            · exact Or.inr (h2 ▸ hy)
            · exact Or.inl h2
          · exact Or.inr h
      · rw [if_neg hy, ih]
        constructor
        · rintro (h | h)
          · exact Or.inl (List.mem_cons_of_mem _ h)
          · rcases List.mem_cons.mp h with h2 | h2
            · exact Or.inl (h2 ▸ List.mem_cons_self _ _)
            · exact Or.inr h2
        · rintro (h | h)
          · rcases List.mem_cons.mp h with h2 | h2
            · exact Or.inr (h2 ▸ List.mem_cons_self _ _)
            · exact Or.inl h2
          · exact Or.inr (List.mem_cons_of_mem _ h)

/-- dedupFirst preserves membership. -/
theorem dedupFirst_mem (l : List String) (x : String) : x ∈ dedupFirst l ↔ x ∈ l := by
  unfold dedupFirst
  rw [dedupAux_mem]
  simp

/-- The pre-11 SampleRef sweep succeeds whenever every present Data element
carries text, and it collects exactly the successfully decoded paths;
references whose decode fails contribute nothing and do not fail the sweep. -/
theorem collectOldPaths_sound (es : List XElem)
    (h : ∀ e ∈ es, ∀ d, firstDataElem e = some d → d.text.isSome = true) :
    ∃ l, collectOldPaths es = some l ∧
      ∀ s, s ∈ l ↔ ∃ e ∈ es, ∃ d, firstDataElem e = some d ∧
          ∃ t, d.text = some t ∧ decodeSamplePath t = some s := by
  induction es with
  | nil => exact ⟨[], rfl, by simp⟩
  | cons e r ih =>
      obtain ⟨l, hl, hmem⟩ := ih (fun e2 he2 => h e2 (List.mem_cons_of_mem _ he2))
      cases hd : firstDataElem e with
      | none =>
          refine ⟨l, by unfold collectOldPaths; rw [hd]; exact hl, ?_⟩
          intro s
          rw [hmem s]
          constructor
          · rintro ⟨e2, he2, rest⟩
            exact ⟨e2, List.mem_cons_of_mem _ he2, rest⟩
          · rintro ⟨e2, he2, d, hd2, rest⟩
            rcases List.mem_cons.mp he2 with h2 | h2
            · rw [h2, hd] at hd2; cases hd2
            · exact ⟨e2, h2, d, hd2, rest⟩
      | some d =>
          have ht := h e (List.mem_cons_self _ _) d hd
          cases htx : d.text with
          | none => rw [htx] at ht; cases ht
          | some t =>
              cases hdec : decodeSamplePath t with
              | none =>
                  refine ⟨l, by simp only [collectOldPaths, hd, htx, hdec]; exact hl, ?_⟩
                  intro s
                  rw [hmem s]
                  constructor
                  · rintro ⟨e2, he2, rest⟩
                    exact ⟨e2, List.mem_cons_of_mem _ he2, rest⟩
                  · rintro ⟨e2, he2, d2, hd2, t2, ht2, hdec2⟩
                    rcases List.mem_cons.mp he2 with h2 | h2
                    · subst h2
                      rw [hd] at hd2
                      cases hd2
                      rw [htx] at ht2
                      cases ht2
                      rw [hdec] at hdec2
                      cases hdec2
                    · exact ⟨e2, h2, d2, hd2, t2, ht2, hdec2⟩
              | some p =>
                  refine ⟨p :: l,
                    by simp only [collectOldPaths, hd, htx, hdec, hl]; rfl, ?_⟩
                  intro s
                  rw [List.mem_cons, hmem s]
                  constructor
                  · rintro (h2 | ⟨e2, he2, rest⟩)
                    · exact ⟨e, List.mem_cons_self _ _, d, hd, t, htx, h2 ▸ hdec⟩
                    · exact ⟨e2, List.mem_cons_of_mem _ he2, rest⟩
                  · rintro ⟨e2, he2, d2, hd2, t2, ht2, hdec2⟩
                    rcases List.mem_cons.mp he2 with h2 | h2
                    · subst h2
                      rw [hd] at hd2
                      cases hd2
                      rw [htx] at ht2
                      cases ht2
                      rw [hdec] at hdec2
                      cases hdec2
                      exact Or.inl rfl
                    · exact Or.inr ⟨e2, h2, d2, hd2, t2, ht2, hdec2⟩

/-- C5 (amended): for a project with major version below 11, the SampleRef
sweep strips tabs and newlines from each FileRef/Data text, decodes it with
bytes.fromhex (which tolerates ASCII whitespace between, but not inside,
two-digit byte pairs) and then with Python's byte-order-mark-sensitive utf-16
codec (little-endian when no mark is present), strips embedded U+0000, and
records exactly the successfully decoded paths; a reference whose hex or
UTF-16 decoding fails is skipped without failing the sweep, and the spec's
example hex string (with spaces) still decodes to C:\a.wav. -/
theorem C5_legacy_sample_decoding_amended (major : Int) (root : XElem)
    (hmaj : major < 11)
    (h : ∀ e ∈ iterTag root "SampleRef", ∀ d, firstDataElem e = some d →
        d.text.isSome = true) :
    (∃ ps, samplePathsOf major root = some ps ∧
      ∀ s, s ∈ ps ↔ ∃ e ∈ iterTag root "SampleRef", ∃ d, firstDataElem e = some d ∧
          ∃ t, d.text = some t ∧ decodeSamplePath t = some s) ∧
    decodeSamplePath "43 00 3A 00 5C 00 61 00 2E 00 77 00 61 00 76 00" =
      some "C:\\a.wav" := by
  refine ⟨?_, by decide⟩
  obtain ⟨l, hl, hmem⟩ := collectOldPaths_sound _ h
  refine ⟨dedupFirst l, ?_, ?_⟩
  · unfold samplePathsOf
    rw [if_pos hmaj, hl]
    rfl
  · intro s
    rw [dedupFirst_mem]
    exact hmem s

/-- A legacy project whose single SampleRef carries the hex text "4 300"
(a space inside a byte pair). -/
def c5BadXml : XElem :=
  .mk "Ableton" [("Creator", "Ableton Live 10.1.0")] none
    [.mk "LiveSet" [] none
      [.mk "SampleRef" [] none
        [.mk "FileRef" [] none
          [.mk "Data" [] (some "4 300") []]]]]

/-- The row under extraction for the C5 counterexample. -/
def c5BadRow : ProjectRow :=
  { newRow 0 0 "p.als" with major_minor_patch := some (10, 1, 0), xml_root := some c5BadXml }

/-- Its catalog. -/
def c5BadCat : Catalog := ⟨[c5BadRow], [], [], 1, 0, 0, 1⟩

/-- C5 counterexample: the claim's pipeline (strip all whitespace and tabs,
then hex-decode) turns the text "4 300" into the path "C", so a Sample row
with path "C" would be recorded; the code strips only tabs and newlines, and
bytes.fromhex rejects the space inside the byte pair, so the reference is
skipped and no sample is recorded at all. -/
theorem C5_legacy_sample_decoding_counterexample :
    specDecodeSamplePath "4 300" = some "C" ∧
    decodeSamplePath "4 300" = none ∧
    (update_samples_step 0 ⟨c5BadCat, c5BadCat⟩).map (fun s => s.cat.samples) =
      some [] := by
  refine ⟨by decide, by decide, by decide⟩

/-- A legacy project with the spec's example reference and a broken one. -/
def c5GoodXml : XElem :=
  .mk "Ableton" [("Creator", "Ableton Live 10.1.0")] none
    [.mk "LiveSet" [] none
      [.mk "SampleRef" [] none
        [.mk "FileRef" [] none
          [.mk "Data" [] (some "43 00 3A 00 5C 00 61 00 2E 00 77 00 61 00 76 00") []]],
       .mk "SampleRef" [] none
        [.mk "FileRef" [] none
          [.mk "Data" [] (some "zz") []]]]]

/-- The row under extraction for the C5 witness. -/
def c5GoodRow : ProjectRow :=
  { newRow 0 0 "p.als" with major_minor_patch := some (10, 1, 0), xml_root := some c5GoodXml }

/-- Its catalog. -/
def c5GoodCat : Catalog := ⟨[c5GoodRow], [], [], 1, 0, 0, 1⟩

/-- C5 witness: the amended theorem applied to the two-reference project, and
the concrete outcome: update_samples records C:\a.wav as a linked Sample,
skips the invalid reference, and succeeds. -/
theorem C5_legacy_sample_decoding_witness :
    ((∃ ps, samplePathsOf 10 c5GoodXml = some ps ∧
      ∀ s, s ∈ ps ↔ ∃ e ∈ iterTag c5GoodXml "SampleRef", ∃ d, firstDataElem e = some d ∧
          ∃ t, d.text = some t ∧ decodeSamplePath t = some s) ∧
    decodeSamplePath "43 00 3A 00 5C 00 61 00 2E 00 77 00 61 00 76 00" =
      some "C:\\a.wav") ∧
    samplePathsOf 10 c5GoodXml = some ["C:\\a.wav"] ∧
    (update_samples_step 0 ⟨c5GoodCat, c5GoodCat⟩).map
      (fun s => (s.cat.samples.map (fun sm => sm.path),
                 (findRowById s.cat 0).map (fun r => r.sampleIds))) =
      some (["C:\\a.wav"], some [0]) :=
  ⟨C5_legacy_sample_decoding_amended 10 c5GoodXml (by decide) (by decide),
   by decide, by decide⟩

/-! ### Claim C4 -/

/-- allDistinct is Nodup. -/
theorem allDistinct_iff_nodup [DecidableEq α] (l : List α) :
    allDistinct l = true ↔ l.Nodup := by
  induction l with
  | nil => simp [allDistinct]
  | cons x r ih =>
      simp [allDistinct, List.nodup_cons, ih]

/-- Rebinding a path leaves every commit-checked constraint untouched. -/
theorem commitCheck_modifyRow_path (c : Catalog) (pid : Nat) (P2 : String) :
    commitCheck (modifyRow c pid (fun r => { r with path := P2 })) = commitCheck c := by
  have h1 : (c.projects.map (fun r => if r.identifier = pid then { r with path := P2 } else r)).map
      (fun r => r.identifier) = c.projects.map (fun r => r.identifier) := by
    rw [List.map_map]
    apply List.map_congr_left
    intro r _
    by_cases h : r.identifier = pid <;> simp [h]
  have h2 : (c.projects.map (fun r => if r.identifier = pid then { r with path := P2 } else r)).filterMap
      (fun r => r.file_hash) = c.projects.filterMap (fun r => r.file_hash) := by
    rw [List.filterMap_map]
    apply List.filterMap_congr
    intro r _
    by_cases h : r.identifier = pid <;> simp [h, Function.comp]
  unfold commitCheck modifyRow
  rw [h1, h2]

/-- C4: when a new path P carries the hash of an existing row B and no row
holds path P, the reconciler succeeds and its entire effect is to set B's
path to P: every other field of B (identifier, uuid, file_hash,
last_scan_timestamp included) and every other row, plugin and sample are
untouched.  The catalog is assumed to satisfy its own commit-time
constraints. -/
theorem C4_rename_preserves_identity (inst : List String) (now : Nat) (P : String)
    (f : ALSFile) (c : Catalog) (B : ProjectRow)
    (hpath : findRowByPath c P = none)
    (hhash : findRowByHash c f.hash = some B)
    (hck : commitCheck c = true) :
    ∃ c2, process_file inst now P f c = (c2, true) ∧
      c2.projects = c.projects.map
        (fun r => if r.identifier = B.identifier then { r with path := P } else r) ∧
      c2.plugins = c.plugins ∧ c2.samples = c.samples ∧
      { B with path := P } ∈ c2.projects ∧
      ({ B with path := P }).identifier = B.identifier ∧
      ({ B with path := P }).uuid = B.uuid ∧
      ({ B with path := P }).file_hash = B.file_hash ∧
      ({ B with path := P }).last_scan_timestamp = B.last_scan_timestamp := by
  have hck2 : commitCheck (modifyRow c B.identifier (fun r => { r with path := P })) = true := by
    rw [commitCheck_modifyRow_path]
    exact hck
  refine ⟨modifyRow c B.identifier (fun r => { r with path := P }), ?_, rfl, rfl, rfl, ?_,
    rfl, rfl, rfl, rfl⟩
  · simp only [process_file, hpath, hhash]
    rw [if_pos hck2]
  · have hB : B ∈ c.projects := List.mem_of_find?_eq_some hhash
    have : (fun r => if r.identifier = B.identifier then { r with path := P } else r) B =
        { B with path := P } := by simp
    exact this ▸ List.mem_map_of_mem _ hB

/-- The catalog for the C4 witness: one fully-hashed row at its old path. -/
def c4Row : ProjectRow := { newRow 0 7 "old.als" with file_hash := some "H" }

/-- Its catalog. -/
def c4Cat : Catalog := ⟨[c4Row], [], [], 1, 0, 0, 1⟩

/-- The file observed at the new path: same content hash. -/
def c4File : ALSFile := ⟨"H", none, none, none, none⟩

/-- C4 witness: renaming old.als to new.als rebinds the row in place. -/
theorem C4_rename_preserves_identity_witness :
    ∃ c2, process_file [] 0 "new.als" c4File c4Cat = (c2, true) ∧
      c2.projects = c4Cat.projects.map
        (fun r => if r.identifier = c4Row.identifier then { r with path := "new.als" } else r) ∧
      c2.plugins = c4Cat.plugins ∧ c2.samples = c4Cat.samples ∧
      { c4Row with path := "new.als" } ∈ c2.projects ∧
      ({ c4Row with path := "new.als" }).identifier = c4Row.identifier ∧
      ({ c4Row with path := "new.als" }).uuid = c4Row.uuid ∧
      ({ c4Row with path := "new.als" }).file_hash = c4Row.file_hash ∧
      ({ c4Row with path := "new.als" }).last_scan_timestamp = c4Row.last_scan_timestamp :=
  C4_rename_preserves_identity [] 0 "new.als" c4File c4Cat c4Row rfl rfl (by decide)

/-! ### Frame lemmas for the extraction steps -/

/-- update_name writes only the name. -/
theorem update_name_eq (r : ProjectRow) :
    update_name r = { r with name := some (pathStem r.path) } := rfl

/-- update_file_times writes only the two timestamp fields. -/
theorem update_file_times_eq (now : Nat) (f : ALSFile) (r : ProjectRow) :
    ∃ ct mt, update_file_times now f r =
      { r with creation_time := ct, last_modification_time := mt } := by
  unfold update_file_times update_last_modification_time update_creation_time
  by_cases hc : r.creation_time.isSome = true
  · rw [if_pos hc]
    cases f.mtime with
    | none =>
        by_cases hm : r.last_modification_time.isNone = true
        · rw [if_pos hm]
          exact ⟨r.creation_time, some now, rfl⟩
        · rw [if_neg hm]
          exact ⟨r.creation_time, r.last_modification_time, rfl⟩
    | some t => exact ⟨r.creation_time, some t, rfl⟩
  · rw [if_neg hc]
    cases f.mtime with
    | none =>
        by_cases hm : (r.last_modification_time).isNone = true
        · rw [if_pos hm]
          exact ⟨some (f.ctime.getD now), some now, rfl⟩
        · rw [if_neg hm]
          exact ⟨some (f.ctime.getD now), r.last_modification_time, rfl⟩
    | some t => exact ⟨some (f.ctime.getD now), some t, rfl⟩

/-- load_xml_data writes only the xml_root. -/
theorem load_xml_data_eq (f : ALSFile) (r : ProjectRow) :
    load_xml_data f r = { r with xml_root := xmlOf r.path f } := rfl

/-- Shape of a successful load_version. -/
theorem load_version_facts (f : ALSFile) (r r2 : ProjectRow) (h : load_version f r = some r2) :
    ∃ root cs v, r.xml_root = some root ∧ attrOf root "Creator" = some cs ∧
      f.creatorVersion = some v ∧
      r2 = { r with creator := some cs, major_minor_patch := some v,
                    major_version := some v.1, minor_version := some v.2.1 } := by
  cases hx : r.xml_root with
  | none => simp [load_version, hx] at h
  | some root =>
      cases hc : attrOf root "Creator" with
      | none => simp [load_version, hx, hc] at h
      | some cs =>
          cases hv : f.creatorVersion with
          | none => simp [load_version, hx, hc, hv] at h
          | some v =>
              simp only [load_version, hx, hc, hv, Option.some.injEq] at h
              subst h
              exact ⟨root, cs, v, rfl, hc, rfl, rfl⟩

/-- A successful update_tempo writes at most the tempo. -/
theorem update_tempo_facts (r r2 : ProjectRow) (h : update_tempo r = some r2) :
    ∃ tp, r2 = { r with tempo := tp } := by
  unfold update_tempo at h
  repeat' split at h
  all_goals first
    | exact Option.noConfusion h
    | exact ⟨r.tempo, (Option.some.inj h).symm⟩
    | exact ⟨_, (Option.some.inj h).symm⟩

/-- A successful update_furthest_bar writes only the furthest bar. -/
theorem update_furthest_bar_facts (r r2 : ProjectRow) (h : update_furthest_bar r = some r2) :
    ∃ fb, r2 = { r with furthest_bar := fb } := by
  unfold update_furthest_bar at h
  repeat' split at h
  all_goals first
    | exact Option.noConfusion h
    | exact ⟨_, (Option.some.inj h).symm⟩

/-- A successful update_key_row writes only the key, which keyOf computed. -/
theorem update_key_row_facts (r r2 : ProjectRow) (h : update_key_row r = some r2) :
    ∃ k, keyOf r.major_version r.xml_root = some k ∧ r2 = { r with key := some k } := by
  cases hk : keyOf r.major_version r.xml_root with
  | none => simp [update_key_row, hk] at h
  | some k =>
      simp only [update_key_row, hk, Option.some.injEq] at h
      subst h
      exact ⟨k, rfl, rfl⟩

/-- A successful update_time_signature_row writes only the signature, which
tsOf computed from the XML root. -/
theorem update_time_signature_row_facts (r r2 : ProjectRow)
    (h : update_time_signature_row r = some r2) :
    ∃ root ts, r.xml_root = some root ∧ tsOf root = some ts ∧
      r2 = { r with time_signature := some ts } := by
  cases hx : r.xml_root with
  | none => simp [update_time_signature_row, hx] at h
  | some root =>
      cases ht : tsOf root with
      | none => simp [update_time_signature_row, hx, ht] at h
      | some ts =>
          simp only [update_time_signature_row, hx, ht, Option.some.injEq] at h
          subst h
          exact ⟨root, ts, rfl, ht, rfl⟩

/-- A successful calculate_duration writes at most the estimated duration. -/
theorem calculate_duration_facts (r r2 : ProjectRow) (h : calculate_duration r = some r2) :
    ∃ d, r2 = { r with estimated_duration := d } := by
  unfold calculate_duration at h
  repeat' split at h
  all_goals first
    | exact Option.noConfusion h
    | exact ⟨r.estimated_duration, (Option.some.inj h).symm⟩
    | exact ⟨_, (Option.some.inj h).symm⟩

/-- Shape of a successful rowPhase1: the pass rewrites exactly the name,
timestamps, xml_root, version fields, tempo and furthest bar, leaving
identifier, uuid, path, file_hash, links, key, signature and duration
untouched. -/
theorem rowPhase1_facts (now : Nat) (f : ALSFile) (r r2 : ProjectRow)
    (h : rowPhase1 now f r = some r2) :
    ∃ ct mt cs tp fb v,
      f.creatorVersion = some v ∧
      r2 = { r with name := some (pathStem r.path), creation_time := ct,
                    last_modification_time := mt, xml_root := xmlOf r.path f,
                    creator := some cs, major_minor_patch := some v,
                    major_version := some v.1, minor_version := some v.2.1,
                    tempo := tp, furthest_bar := fb } := by
  cases hv : load_version f (load_xml_data f (update_file_times now f (update_name r))) with
  | none => simp [rowPhase1, hv] at h
  | some r4 =>
      cases ht : update_tempo r4 with
      | none => simp [rowPhase1, hv, ht] at h
      | some r5 =>
          simp only [rowPhase1, hv, ht] at h
          obtain ⟨root, cs, v, hxr, hcr, hvv, hr4⟩ := load_version_facts _ _ _ hv
          obtain ⟨tp, hr5⟩ := update_tempo_facts _ _ ht
          obtain ⟨fb, hr2⟩ := update_furthest_bar_facts _ _ h
          obtain ⟨ct, mt, hft⟩ := update_file_times_eq now f (update_name r)
          refine ⟨ct, mt, cs, tp, fb, v, hvv, ?_⟩
          rw [hr2, hr5, hr4, load_xml_data_eq, hft]
          rfl

/-- Shape of a successful rowPhase2: it rewrites exactly the key, the time
signature, possibly the duration, and the file hash. -/
theorem rowPhase2_facts (f : ALSFile) (r r2 : ProjectRow) (h : rowPhase2 f r = some r2) :
    ∃ k root ts d, keyOf r.major_version r.xml_root = some k ∧
      r.xml_root = some root ∧ tsOf root = some ts ∧
      r2 = { r with key := some k, time_signature := some ts,
                    estimated_duration := d, file_hash := some f.hash } := by
  cases h1 : update_key_row r with
  | none => simp [rowPhase2, h1] at h
  | some r1 =>
      cases h2 : update_time_signature_row r1 with
      | none => simp [rowPhase2, h1, h2] at h
      | some rB =>
          cases h3 : calculate_duration rB with
          | none => simp [rowPhase2, h1, h2, h3] at h
          | some rC =>
              simp only [rowPhase2, h1, h2, h3] at h
              obtain ⟨k, hk, hr1⟩ := update_key_row_facts _ _ h1
              obtain ⟨root, ts, hroot, hts, hrB⟩ := update_time_signature_row_facts _ _ h2
              obtain ⟨d, hrC⟩ := calculate_duration_facts _ _ h3
              refine ⟨k, root, ts, d, hk, ?_, hts, ?_⟩
              · rw [hr1] at hroot
                exact hroot
              · obtain rfl := Option.some.inj h
                rw [hrC, hrB, hr1]
                rfl

/-! ### List-level frame lemmas for the catalog -/

/-- All scalar columns of a row (everything except the two link lists). -/
def rowScal (r : ProjectRow) :=
  (r.identifier, r.uuid, r.path, r.file_hash, r.last_scan_timestamp, r.name,
   r.creation_time, r.last_modification_time, r.xml_root, r.creator, r.major_version,
   r.minor_version, r.major_minor_patch, r.tempo, r.key, r.time_signature,
   r.furthest_bar, r.estimated_duration)

/-- Mapping a projection through a conditional in-place update that the
projection ignores. -/
theorem map_if_id_proj {β : Type} (proj : ProjectRow → β) (l : List ProjectRow) (pid : Nat)
    (g : ProjectRow → ProjectRow) (hg : ∀ r, r.identifier = pid → proj (g r) = proj r) :
    (l.map (fun r => if r.identifier = pid then g r else r)).map proj = l.map proj := by
  rw [List.map_map]
  apply List.map_congr_left
  intro r _
  by_cases h : r.identifier = pid <;> simp [h, hg]

/-- modifyRow under a projection the update ignores. -/
theorem modifyRow_map_proj {β : Type} (proj : ProjectRow → β) (c : Catalog) (pid : Nat)
    (g : ProjectRow → ProjectRow) (hg : ∀ r, r.identifier = pid → proj (g r) = proj r) :
    (modifyRow c pid g).projects.map proj = c.projects.map proj :=
  map_if_id_proj proj c.projects pid g hg

/-- find?-by-id commutes with an id-preserving in-place update, at the
list level. -/
theorem find?_id_map_if (l : List ProjectRow) (pid : Nat) (g : ProjectRow → ProjectRow)
    (hg : ∀ r, r.identifier = pid → (g r).identifier = pid) :
    (l.map (fun r => if r.identifier = pid then g r else r)).find?
        (fun r => decide (r.identifier = pid)) =
      (l.find? (fun r => decide (r.identifier = pid))).map g := by
  induction l with
  | nil => rfl
  | cons r t ih =>
      by_cases h : r.identifier = pid
      · simp [List.find?_cons, h, hg r h]
      · simp [List.find?_cons, h, ih]

/-- findRowById commutes with an id-preserving in-place update. -/
theorem findRowById_modifyRow (c : Catalog) (pid : Nat) (g : ProjectRow → ProjectRow)
    (hg : ∀ r, r.identifier = pid → (g r).identifier = pid) :
    findRowById (modifyRow c pid g) pid = (findRowById c pid).map g :=
  find?_id_map_if c.projects pid g hg

/-- find?-by-id only looks at fields a projection containing the id
exposes. -/
theorem find?_map_proj {β : Type} (p : β → Bool) (proj : ProjectRow → β) :
    ∀ (l1 l2 : List ProjectRow), l1.map proj = l2.map proj →
      (l1.find? (fun r => p (proj r))).map proj =
        (l2.find? (fun r => p (proj r))).map proj := by
  intro l1
  induction l1 with
  | nil =>
      intro l2 h
      cases l2 with
      | nil => rfl
      | cons b t2 => simp at h
  | cons a t ih =>
      intro l2 h
      cases l2 with
      | nil => simp at h
      | cons b t2 =>
          simp only [List.map_cons, List.cons.injEq] at h
          obtain ⟨hab, ht⟩ := h
          by_cases hp : p (proj a) = true
          · have hpb : p (proj b) = true := by rw [← hab]; exact hp
            simp [List.find?_cons, hp, hpb, hab]
          · have hpa : p (proj a) = false := by
              cases hka : p (proj a)
              · rfl
              · exact absurd hka hp
            have hpb : p (proj b) = false := by rw [← hab]; exact hpa
            simp [List.find?_cons, hpa, hpb]
            exact ih t2 ht

/-- find?-by-id transported along rowScal-equal project lists. -/
theorem findRowById_map_rowScal (c2 c : Catalog) (pid : Nat)
    (h : c2.projects.map rowScal = c.projects.map rowScal) :
    (findRowById c2 pid).map rowScal = (findRowById c pid).map rowScal := by
  have h2 := find?_map_proj (fun t => decide (t.1 = pid)) rowScal c2.projects c.projects h
  exact h2

/-- With pairwise-distinct identifiers, find?-by-id of a member is that
member. -/
theorem find?_id_of_nodup (l : List ProjectRow) (a : ProjectRow)
    (hnd : (l.map (fun r => r.identifier)).Nodup) (ha : a ∈ l) :
    l.find? (fun r => decide (r.identifier = a.identifier)) = some a := by
  induction l with
  | nil => cases ha
  | cons b t ih =>
      rw [List.map_cons, List.nodup_cons] at hnd
      rcases List.mem_cons.mp ha with h | h
      · subst h
        simp [List.find?_cons]
      · have hbid : ¬ (b.identifier = a.identifier) := by
          intro he
          exact hnd.1 (he ▸ List.mem_map_of_mem (fun r => r.identifier) h)
        simp [List.find?_cons, hbid]
        exact ih hnd.2 h

/-- linkSample touches only the sampleIds list of the addressed row. -/
theorem linkSample_frame (pid sid : Nat) (c : Catalog) :
    (linkSample pid sid c).projects.map rowScal = c.projects.map rowScal ∧
    (linkSample pid sid c).projects.map (fun r => r.pluginIds) =
      c.projects.map (fun r => r.pluginIds) ∧
    (linkSample pid sid c).plugins = c.plugins ∧
    (linkSample pid sid c).samples = c.samples ∧
    (linkSample pid sid c).nextPluginId = c.nextPluginId ∧
    (linkSample pid sid c).nextProjectId = c.nextProjectId ∧
    (linkSample pid sid c).nextUuid = c.nextUuid := by
  refine ⟨?_, ?_, rfl, rfl, rfl, rfl, rfl⟩
  · apply modifyRow_map_proj
    intro r
    by_cases h : sid ∈ r.sampleIds <;> simp [rowScal, h]
  · apply modifyRow_map_proj
    intro r
    by_cases h : sid ∈ r.sampleIds <;> simp [h]

/-- attach_sample touches only the samples table, the sample counter and the
sampleIds of the addressed row. -/
theorem attach_sample_frame (pid : Nat) (p : String) (c : Catalog) :
    (attach_sample pid p c).projects.map rowScal = c.projects.map rowScal ∧
    (attach_sample pid p c).projects.map (fun r => r.pluginIds) =
      c.projects.map (fun r => r.pluginIds) ∧
    (attach_sample pid p c).plugins = c.plugins ∧
    (attach_sample pid p c).nextPluginId = c.nextPluginId ∧
    (attach_sample pid p c).nextProjectId = c.nextProjectId ∧
    (attach_sample pid p c).nextUuid = c.nextUuid := by
  unfold attach_sample
  cases h : findSample c p with
  | some sm =>
      obtain ⟨h1, h2, h3, _, h5, h6, h7⟩ := linkSample_frame pid sm.id c
      exact ⟨h1, h2, h3, h5, h6, h7⟩
  | none =>
      obtain ⟨h1, h2, h3, _, h5, h6, h7⟩ := linkSample_frame pid c.nextSampleId
        { c with samples := c.samples ++ [⟨c.nextSampleId, p, pathName p, true⟩],
                 nextSampleId := c.nextSampleId + 1 }
      exact ⟨h1, h2, h3, h5, h6, h7⟩

/-- The sample loop of update_samples, framewise. -/
theorem foldl_attach_sample_frame (pid : Nat) (paths : List String) : ∀ c : Catalog,
    ((paths.foldl (fun c p => attach_sample pid p c) c).projects.map rowScal =
        c.projects.map rowScal ∧
      (paths.foldl (fun c p => attach_sample pid p c) c).projects.map
          (fun r => r.pluginIds) = c.projects.map (fun r => r.pluginIds) ∧
      (paths.foldl (fun c p => attach_sample pid p c) c).plugins = c.plugins ∧
      (paths.foldl (fun c p => attach_sample pid p c) c).nextPluginId = c.nextPluginId ∧
      (paths.foldl (fun c p => attach_sample pid p c) c).nextProjectId = c.nextProjectId ∧
      (paths.foldl (fun c p => attach_sample pid p c) c).nextUuid = c.nextUuid) := by
  induction paths with
  | nil => intro c; exact ⟨rfl, rfl, rfl, rfl, rfl, rfl⟩
  | cons p rest ih =>
      intro c
      obtain ⟨h1, h2, h3, h4, h5, h6⟩ := attach_sample_frame pid p c
      obtain ⟨g1, g2, g3, g4, g5, g6⟩ := ih (attach_sample pid p c)
      exact ⟨g1.trans h1, g2.trans h2, g3.trans h3, g4.trans h4, g5.trans h5, g6.trans h6⟩

/-- linkPlugin touches only the pluginIds list of the addressed row. -/
theorem linkPlugin_frame (pid plid : Nat) (c : Catalog) :
    (linkPlugin pid plid c).projects.map rowScal = c.projects.map rowScal ∧
    (linkPlugin pid plid c).projects.map (fun r => r.sampleIds) =
      c.projects.map (fun r => r.sampleIds) ∧
    (linkPlugin pid plid c).plugins = c.plugins ∧
    (linkPlugin pid plid c).samples = c.samples ∧
    (linkPlugin pid plid c).nextSampleId = c.nextSampleId ∧
    (linkPlugin pid plid c).nextProjectId = c.nextProjectId ∧
    (linkPlugin pid plid c).nextUuid = c.nextUuid := by
  refine ⟨?_, ?_, rfl, rfl, rfl, rfl, rfl⟩
  · apply modifyRow_map_proj
    intro r
    by_cases h : plid ∈ r.pluginIds <;> simp [rowScal, h]
  · apply modifyRow_map_proj
    intro r
    by_cases h : plid ∈ r.pluginIds <;> simp [h]

/-- attach_plugin touches only the plugins table, the plugin counter and the
pluginIds of the addressed row. -/
theorem attach_plugin_frame (inst : List String) (pid : Nat) (ver nm : String) (c : Catalog) :
    (attach_plugin inst pid ver nm c).projects.map rowScal = c.projects.map rowScal ∧
    (attach_plugin inst pid ver nm c).projects.map (fun r => r.sampleIds) =
      c.projects.map (fun r => r.sampleIds) ∧
    (attach_plugin inst pid ver nm c).samples = c.samples ∧
    (attach_plugin inst pid ver nm c).nextSampleId = c.nextSampleId ∧
    (attach_plugin inst pid ver nm c).nextProjectId = c.nextProjectId ∧
    (attach_plugin inst pid ver nm c).nextUuid = c.nextUuid := by
  unfold attach_plugin
  cases h : findPlugin c nm ver with
  | some q =>
      obtain ⟨h1, h2, _, h4, h5, h6, h7⟩ := linkPlugin_frame pid q.id c
      exact ⟨h1, h2, h4, h5, h6, h7⟩
  | none =>
      obtain ⟨h1, h2, _, h4, h5, h6, h7⟩ := linkPlugin_frame pid c.nextPluginId
        { c with plugins := c.plugins ++ [mkPlugin inst c.nextPluginId nm ver],
                 nextPluginId := c.nextPluginId + 1 }
      exact ⟨h1, h2, h4, h5, h6, h7⟩

/-- One plugin loop of update_plugins, framewise. -/
theorem foldl_attach_plugin_frame (inst : List String) (pid : Nat) (ver : String)
    (nms : List String) : ∀ c : Catalog,
    ((nms.foldl (fun c nm => attach_plugin inst pid ver nm c) c).projects.map rowScal =
        c.projects.map rowScal ∧
      (nms.foldl (fun c nm => attach_plugin inst pid ver nm c) c).projects.map
          (fun r => r.sampleIds) = c.projects.map (fun r => r.sampleIds) ∧
      (nms.foldl (fun c nm => attach_plugin inst pid ver nm c) c).samples = c.samples ∧
      (nms.foldl (fun c nm => attach_plugin inst pid ver nm c) c).nextSampleId =
        c.nextSampleId ∧
      (nms.foldl (fun c nm => attach_plugin inst pid ver nm c) c).nextProjectId =
        c.nextProjectId ∧
      (nms.foldl (fun c nm => attach_plugin inst pid ver nm c) c).nextUuid = c.nextUuid) := by
  induction nms with
  | nil => intro c; exact ⟨rfl, rfl, rfl, rfl, rfl, rfl⟩
  | cons nm rest ih =>
      intro c
      obtain ⟨h1, h2, h3, h4, h5, h6⟩ := attach_plugin_frame inst pid ver nm c
      obtain ⟨g1, g2, g3, g4, g5, g6⟩ := ih (attach_plugin inst pid ver nm c)
      exact ⟨g1.trans h1, g2.trans h2, g3.trans h3, g4.trans h4, g5.trans h5, g6.trans h6⟩

/-- What a successful commit means. -/
theorem commitS_facts (s s2 : SessionState) (h : commitS s = some s2) :
    s2.cat = s.cat ∧ s2.committed = s.cat ∧ commitCheck s.cat = true := by
  unfold commitS at h
  split at h
  case isTrue hck =>
      obtain rfl := Option.some.inj h
      exact ⟨rfl, rfl, hck⟩
  case isFalse => exact Option.noConfusion h

/-- update_samples_step, framewise: the plugins table, plugin links, plugin
counter, project counter, uuid counter and every scalar column of every row
are untouched. -/
theorem update_samples_step_facts (pid : Nat) (s s2 : SessionState)
    (h : update_samples_step pid s = some s2) :
    s2.cat.projects.map rowScal = s.cat.projects.map rowScal ∧
    s2.cat.projects.map (fun r => r.pluginIds) = s.cat.projects.map (fun r => r.pluginIds) ∧
    s2.cat.plugins = s.cat.plugins ∧
    s2.cat.nextPluginId = s.cat.nextPluginId ∧
    s2.cat.nextProjectId = s.cat.nextProjectId ∧
    s2.cat.nextUuid = s.cat.nextUuid := by
  cases h0 : findRowById s.cat pid with
  | none => simp [update_samples_step, h0] at h
  | some r =>
      cases h1 : r.major_minor_patch with
      | none => simp [update_samples_step, h0, h1] at h
      | some v =>
          cases h2 : r.xml_root with
          | none => simp [update_samples_step, h0, h1, h2] at h
          | some root =>
              cases h3 : samplePathsOf v.1 root with
              | none => simp [update_samples_step, h0, h1, h2, h3] at h
              | some paths =>
                  cases paths with
                  | nil =>
                      simp only [update_samples_step, h0, h1, h2, h3,
                        Option.some.injEq] at h
                      subst h
                      exact ⟨rfl, rfl, rfl, rfl, rfl, rfl⟩
                  | cons p rest =>
                      simp only [update_samples_step, h0, h1, h2, h3] at h
                      obtain ⟨hcat, _, _⟩ := commitS_facts _ _ h
                      obtain ⟨g1, g2, g3, g4, g5, g6⟩ :=
                        foldl_attach_sample_frame pid (p :: rest) s.cat
                      rw [hcat]
                      exact ⟨g1, g2, g3, g4, g5, g6⟩

/-- update_plugins_step, framewise: the samples table, sample links, sample
counter, project counter, uuid counter and every scalar column of every row
are untouched. -/
theorem update_plugins_step_facts (inst : List String) (pid : Nat) (s s2 : SessionState)
    (h : update_plugins_step inst pid s = some s2) :
    s2.cat.projects.map rowScal = s.cat.projects.map rowScal ∧
    s2.cat.projects.map (fun r => r.sampleIds) = s.cat.projects.map (fun r => r.sampleIds) ∧
    s2.cat.samples = s.cat.samples ∧
    s2.cat.nextSampleId = s.cat.nextSampleId ∧
    s2.cat.nextProjectId = s.cat.nextProjectId ∧
    s2.cat.nextUuid = s.cat.nextUuid := by
  cases h0 : findRowById s.cat pid with
  | none => simp [update_plugins_step, h0] at h
  | some r =>
      cases h2 : r.xml_root with
      | none => simp [update_plugins_step, h0, h2] at h
      | some root =>
          cases h3 : pluginNamesOf root with
          | none => simp [update_plugins_step, h0, h2, h3] at h
          | some nv =>
              simp only [update_plugins_step, h0, h2, h3] at h
              obtain ⟨hcat, _, _⟩ := commitS_facts _ _ h
              obtain ⟨g1, g2, g3, g4, g5, g6⟩ :=
                foldl_attach_plugin_frame inst pid "VST" nv.1 s.cat
              obtain ⟨k1, k2, k3, k4, k5, k6⟩ :=
                foldl_attach_plugin_frame inst pid "VST3" nv.2
                  (nv.1.foldl (fun c nm => attach_plugin inst pid "VST" nm c) s.cat)
              rw [hcat]
              exact ⟨k1.trans g1, k2.trans g2, k3.trans g3, k4.trans g4, k5.trans g5,
                k6.trans g6⟩

/-- Shape of a successful liftRowStep. -/
theorem liftRowStep_facts (pid : Nat) (g : ProjectRow → Option ProjectRow)
    (s : SessionState) (s2 : SessionState) (h : liftRowStep pid g s = some s2) :
    ∃ r r2, findRowById s.cat pid = some r ∧ g r = some r2 ∧
      s2 = { s with cat := modifyRow s.cat pid (fun _ => r2) } := by
  cases h0 : findRowById s.cat pid with
  | none => simp [liftRowStep, h0] at h
  | some r =>
      cases h1 : g r with
      | none => simp [liftRowStep, h0, h1] at h
      | some r2 =>
          simp only [liftRowStep, h0, h1, Option.some.injEq] at h
          subst h
          exact ⟨r, r2, rfl, h1, rfl⟩

/-- A successful parse_all decomposes into its four stages. -/
theorem parse_all_success (inst : List String) (now : Nat) (f : ALSFile) (pid : Nat)
    (s s1 : SessionState) (h : parse_all inst now f pid s = (s1, true)) :
    ∃ sA sB sC, liftRowStep pid (rowPhase1 now f) s = some sA ∧
      update_samples_step pid sA = some sB ∧
      update_plugins_step inst pid sB = some sC ∧
      liftRowStep pid (rowPhase2 f) sC = some s1 := by
  cases hA : liftRowStep pid (rowPhase1 now f) s with
  | none => simp [parse_all, hA] at h
  | some sA =>
      cases hB : update_samples_step pid sA with
      | none => simp [parse_all, hA, hB] at h
      | some sB =>
          cases hC : update_plugins_step inst pid sB with
          | none => simp [parse_all, hA, hB, hC] at h
          | some sC =>
              cases hD : liftRowStep pid (rowPhase2 f) sC with
              | none => simp [parse_all, hA, hB, hC, hD] at h
              | some s4 =>
                  simp only [parse_all, hA, hB, hC, hD, Prod.mk.injEq] at h
                  exact ⟨sA, sB, sC, rfl, hB, hC, by rw [hD, h.1]⟩

/-- Componentwise consequences of rowScal equality. -/
theorem rowScal_inj_fields (a b : ProjectRow) (h : rowScal a = rowScal b) :
    a.identifier = b.identifier ∧ a.uuid = b.uuid ∧ a.path = b.path ∧
    a.file_hash = b.file_hash ∧ a.name = b.name ∧ a.xml_root = b.xml_root ∧
    a.major_minor_patch = b.major_minor_patch ∧ a.major_version = b.major_version ∧
    a.time_signature = b.time_signature := by
  simp only [rowScal, Prod.mk.injEq] at h
  obtain ⟨h1, h2, h3, h4, h5, h6, h7, h8, h9, h10, h11, h12, h13, h14, h15, h16, h17,
    h18⟩ := h
  exact ⟨h1, h2, h3, h4, h6, h9, h13, h11, h16⟩

/-- The identifier column is part of rowScal. -/
theorem map_id_of_map_rowScal (l1 l2 : List ProjectRow)
    (h : l1.map rowScal = l2.map rowScal) :
    l1.map (fun r => r.identifier) = l2.map (fun r => r.identifier) := by
  have h1 : l1.map (fun r => r.identifier) = (l1.map rowScal).map (fun t => t.1) := by
    rw [List.map_map]
    rfl
  have h2 : l2.map (fun r => r.identifier) = (l2.map rowScal).map (fun t => t.1) := by
    rw [List.map_map]
    rfl
  rw [h1, h2, h]

/-- find? skips a prefix it rejects. -/
theorem find?_append_of_none {p : ProjectRow → Bool} (l1 l2 : List ProjectRow)
    (h : l1.find? p = none) : (l1 ++ l2).find? p = l2.find? p := by
  induction l1 with
  | nil => rfl
  | cons a t ih =>
      rw [List.find?_cons] at h
      cases hp : p a with
      | true => rw [hp] at h; exact Option.noConfusion h
      | false =>
          rw [hp] at h
          rw [List.cons_append, List.find?_cons, hp]
          exact ih h

/-- Tracking the parsed row through a successful parse_all: every stage
preserves identifier, uuid and path, the name was set from the stem, and
the final stage wrote the file hash. -/
theorem parse_then_hash_facts (inst : List String) (now : Nat) (f : ALSFile) (pid : Nat)
    (scat ccommit : Catalog) (s1 : SessionState) (r0 : ProjectRow)
    (hfind : findRowById scat pid = some r0)
    (hps : parse_all inst now f pid ⟨scat, ccommit⟩ = (s1, true)) :
    s1.cat.projects.map (fun r => r.identifier) =
      scat.projects.map (fun r => r.identifier) ∧
    ∃ r2, findRowById s1.cat pid = some r2 ∧ r2.file_hash = some f.hash ∧
      r2.path = r0.path ∧ r2.uuid = r0.uuid ∧ r2.name = some (pathStem r0.path) ∧
      r2.identifier = pid := by
  have hpid : r0.identifier = pid := by
    have := List.find?_some hfind
    simpa using this
  obtain ⟨sA, sB, sC, hA, hB, hC, hD⟩ := parse_all_success inst now f pid _ _ hps
  obtain ⟨rA0, rA1, hfA, hgA, hsA⟩ := liftRowStep_facts _ _ _ _ hA
  have hr0 : rA0 = r0 := by
    rw [hfind] at hfA
    exact (Option.some.inj hfA).symm
  subst hr0
  obtain ⟨ct, mt, cs, tp, fb, v, hvv, hr1⟩ := rowPhase1_facts now f rA0 rA1 hgA
  have hidA1 : rA1.identifier = pid := by rw [hr1]; exact hpid
  have hfindA : findRowById sA.cat pid = some rA1 := by
    rw [hsA]
    have := findRowById_modifyRow scat pid (fun _ => rA1) (fun r _ => hidA1)
    rw [this, hfind]
    rfl
  obtain ⟨sf1, sf2, sf3, sf4, sf5, sf6⟩ := update_samples_step_facts _ _ _ hB
  have hfindB : (findRowById sB.cat pid).map rowScal = some (rowScal rA1) := by
    rw [findRowById_map_rowScal _ _ _ sf1, hfindA]
    rfl
  obtain ⟨pf1, pf2, pf3, pf4, pf5, pf6⟩ := update_plugins_step_facts _ _ _ _ hC
  have hfindC : (findRowById sC.cat pid).map rowScal = some (rowScal rA1) := by
    rw [findRowById_map_rowScal _ _ _ pf1]
    exact hfindB
  obtain ⟨rC0, rC1, hfC, hgC, hsD⟩ := liftRowStep_facts _ _ _ _ hD
  have hscal : rowScal rC0 = rowScal rA1 := by
    rw [hfC] at hfindC
    exact Option.some.inj (by simpa using hfindC)
  obtain ⟨e1, e2, e3, e4, e5, e6, e7, e8, e9⟩ := rowScal_inj_fields _ _ hscal
  obtain ⟨k, root, ts, d, hk, hroot, hts, hr2⟩ := rowPhase2_facts f rC0 rC1 hgC
  have hidC1 : rC1.identifier = pid := by
    rw [hr2]
    show rC0.identifier = pid
    rw [e1, hidA1]
  constructor
  · have m4 : s1.cat.projects.map (fun r => r.identifier) =
        sC.cat.projects.map (fun r => r.identifier) := by
      rw [hsD]
      exact map_if_id_proj (fun r => r.identifier) sC.cat.projects pid _
        (fun r hr => hidC1.trans hr.symm)
    have m3 := map_id_of_map_rowScal _ _ pf1
    have m2 := map_id_of_map_rowScal _ _ sf1
    have m1 : sA.cat.projects.map (fun r => r.identifier) =
        scat.projects.map (fun r => r.identifier) := by
      rw [hsA]
      exact map_if_id_proj (fun r => r.identifier) scat.projects pid _
        (fun r hr => hidA1.trans hr.symm)
    rw [m4, m3, m2, m1]
  · refine ⟨rC1, ?_, ?_, ?_, ?_, ?_, hidC1⟩
    · rw [hsD]
      have := findRowById_modifyRow sC.cat pid (fun _ => rC1) (fun r _ => hidC1)
      rw [this, hfC]
      rfl
    · rw [hr2]
    · rw [hr2]
      show rC0.path = rA0.path
      rw [e3, hr1]
    · rw [hr2]
      show rC0.uuid = rA0.uuid
      rw [e2, hr1]
    · rw [hr2]
      show rC0.name = some (pathStem rA0.path)
      rw [e5, hr1]

/-! ### Claim C1 -/

/-- C1 (amended): the reconciler's decision table.  (A) If a row exists at
path P, it is re-extracted in place: no row is created or removed, and on a
pass that commits the row keeps its identifier and uuid, its name is
recomputed from the stem and its file_hash becomes H — but the final commit
succeeds only when no other row already holds H, since file_hash is a unique
column (see the counterexample).  (B) If no row holds P but a row B holds H,
the pass succeeds and only B's path is set to P.  (C) If neither matches, a
new row with a fresh identifier and uuid is appended, fully extracted, and
given hash H.  The catalog is assumed to satisfy its commit-time constraints
and the autoincrement invariant. -/
theorem C1_decision_table_amended (inst : List String) (now : Nat) (P : String)
    (f : ALSFile) (c : Catalog)
    (hck : commitCheck c = true)
    (hfresh : ∀ r ∈ c.projects, r.identifier < c.nextProjectId) :
    (∀ A, findRowByPath c P = some A →
      ∀ c2, process_file inst now P f c = (c2, true) →
        c2.projects.map (fun r => r.identifier) = c.projects.map (fun r => r.identifier) ∧
        ∃ r2, findRowById c2 A.identifier = some r2 ∧ r2.file_hash = some f.hash ∧
          r2.path = P ∧ r2.uuid = A.uuid ∧ r2.name = some (pathStem P)) ∧
    (findRowByPath c P = none → ∀ B, findRowByHash c f.hash = some B →
      process_file inst now P f c =
        (modifyRow c B.identifier (fun r => { r with path := P }), true)) ∧
    (findRowByPath c P = none → findRowByHash c f.hash = none →
      ∀ c2, process_file inst now P f c = (c2, true) →
        c2.projects.map (fun r => r.identifier) =
          c.projects.map (fun r => r.identifier) ++ [c.nextProjectId] ∧
        ∃ r2, findRowById c2 c.nextProjectId = some r2 ∧ r2.file_hash = some f.hash ∧
          r2.path = P ∧ r2.uuid = c.nextUuid ∧ r2.name = some (pathStem P)) := by
  have hnodup : (c.projects.map (fun r => r.identifier)).Nodup := by
    have h := hck
    simp only [commitCheck, Bool.and_eq_true] at h
    exact (allDistinct_iff_nodup _).mp h.1.1.1
  refine ⟨?_, ?_, ?_⟩
  · intro A hA c2 hc2
    have hAP : A.path = P := by simpa using List.find?_some hA
    have hAid : findRowById c A.identifier = some A :=
      find?_id_of_nodup c.projects A hnodup (List.mem_of_find?_eq_some hA)
    simp only [process_file, hA] at hc2
    rcases hps : parse_all inst now f A.identifier ⟨c, c⟩ with ⟨s1, ok⟩
    rw [hps] at hc2
    cases ok with
    | false => simp at hc2
    | true =>
        cases hcm : commitS { s1 with
            cat := modifyRow s1.cat A.identifier (withHash f.hash) } with
        | none =>
            simp only [hcm] at hc2
            simp at hc2
        | some s3 =>
            simp only [hcm, Prod.mk.injEq] at hc2
            obtain ⟨hc2a, _⟩ := hc2
            obtain ⟨hcat3, hcom3, _⟩ := commitS_facts _ _ hcm
            obtain ⟨hidmap, r2, hfr2, hh, hp, hu, hn, hid⟩ :=
              parse_then_hash_facts inst now f A.identifier c c s1 A hAid hps
            constructor
            · rw [← hc2a, hcom3]
              have hm := map_if_id_proj (fun r => r.identifier) s1.cat.projects
                A.identifier (withHash f.hash) (fun _ _ => rfl)
              exact hm.trans hidmap
            · refine ⟨withHash f.hash r2, ?_, rfl, ?_, ?_, ?_⟩
              · rw [← hc2a, hcom3]
                have hmr := findRowById_modifyRow s1.cat A.identifier
                  (withHash f.hash) (fun r hr => hr)
                show findRowById (modifyRow s1.cat A.identifier (withHash f.hash))
                  A.identifier = _
                rw [hmr, hfr2]
                rfl
              · show r2.path = P
                rw [hp, hAP]
              · exact hu
              · show r2.name = some (pathStem P)
                rw [hn, hAP]
  · intro hpath B hhash
    have hck2 : commitCheck (modifyRow c B.identifier (fun r => { r with path := P })) =
        true := by
      rw [commitCheck_modifyRow_path]
      exact hck
    simp [process_file, hpath, hhash, hck2]
  · intro hpath hhash c2 hc2
    simp only [process_file, hpath, hhash] at hc2
    have hnone : c.projects.find? (fun r => decide (r.identifier = c.nextProjectId)) =
        none := by
      rw [List.find?_eq_none]
      intro r hr
      simp only [decide_eq_true_eq]
      exact Nat.ne_of_lt (hfresh r hr)
    have hfindNew : findRowById
        { c with projects := c.projects ++ [newRow c.nextProjectId c.nextUuid P],
                 nextProjectId := c.nextProjectId + 1, nextUuid := c.nextUuid + 1 }
        c.nextProjectId = some (newRow c.nextProjectId c.nextUuid P) := by
      show (c.projects ++ [newRow c.nextProjectId c.nextUuid P]).find?
        (fun r => decide (r.identifier = c.nextProjectId)) = _
      rw [find?_append_of_none _ _ hnone]
      simp [List.find?_cons, newRow]
    simp only [show (newRow c.nextProjectId c.nextUuid P).identifier = c.nextProjectId
      from rfl] at hc2
    rcases hps : parse_all inst now f c.nextProjectId
        ⟨{ c with projects := c.projects ++ [newRow c.nextProjectId c.nextUuid P],
                  nextProjectId := c.nextProjectId + 1, nextUuid := c.nextUuid + 1 }, c⟩
      with ⟨s1, ok⟩
    rw [hps] at hc2
    cases ok with
    | false => simp at hc2
    | true =>
        cases hcm : commitS { s1 with
            cat := modifyRow s1.cat c.nextProjectId (withHash f.hash) } with
        | none =>
            simp only [hcm] at hc2
            simp at hc2
        | some s3 =>
            simp only [hcm, Prod.mk.injEq] at hc2
            obtain ⟨hc2a, _⟩ := hc2
            obtain ⟨hcat3, hcom3, _⟩ := commitS_facts _ _ hcm
            obtain ⟨hidmap, r2, hfr2, hh, hp, hu, hn, hid⟩ :=
              parse_then_hash_facts inst now f c.nextProjectId _ c s1
                (newRow c.nextProjectId c.nextUuid P) hfindNew hps
            constructor
            · rw [← hc2a, hcom3]
              have hm := map_if_id_proj (fun r => r.identifier) s1.cat.projects
                c.nextProjectId (withHash f.hash) (fun _ _ => rfl)
              refine hm.trans (hidmap.trans ?_)
              show ((c.projects ++ [newRow c.nextProjectId c.nextUuid P]).map
                (fun r => r.identifier)) = _
              rw [List.map_append]
              rfl
            · refine ⟨withHash f.hash r2, ?_, rfl, ?_, ?_, ?_⟩
              · rw [← hc2a, hcom3]
                have hmr := findRowById_modifyRow s1.cat c.nextProjectId
                  (withHash f.hash) (fun r hr => hr)
                show findRowById (modifyRow s1.cat c.nextProjectId (withHash f.hash))
                  c.nextProjectId = _
                rw [hmr, hfr2]
                rfl
              · exact hp
              · exact hu
              · exact hn

/-- A minimal fully-parseable Live 11 project: Creator attribute, the modern
tempo element at 120.0, and the time-signature marker EnumEvent. -/
def alsXml : XElem :=
  .mk "Ableton" [("Creator", "Ableton Live 11.0.0")] none
    [.mk "LiveSet" [] none
      [.mk "MasterTrack" [] none
        [.mk "DeviceChain" [] none
          [.mk "Mixer" [] none
            [.mk "Tempo" [] none
              [.mk "Manual" [("Value", "120.0")] none []]]]],
       .mk "EnumEvent" [("Time", "-63072000"), ("Value", "3")] none []]]

/-- Row A of the C1 counterexample: lives at p.als with hash h0. -/
def c1RowA : ProjectRow := { newRow 0 0 "p.als" with file_hash := some "h0" }

/-- Row B of the C1 counterexample: a different project whose hash is H. -/
def c1RowB : ProjectRow := { newRow 1 1 "q.als" with file_hash := some "H" }

/-- The two-row catalog. -/
def c1Cat : Catalog := ⟨[c1RowA, c1RowB], [], [], 2, 0, 0, 2⟩

/-- The file now observed at p.als: its content hash H collides with row B. -/
def c1File : ALSFile := ⟨"H", some alsXml, some 1, some 2, some (11, 0, 0)⟩

/-- C1 counterexample: the claim says the row at P is re-extracted and its
file_hash set to H regardless of whether H matches another row.  Here row B
already holds H, so the final commit violates the unique file_hash column
and raises IntegrityError: the pass fails and row A keeps hash h0. -/
theorem C1_decision_table_counterexample :
    (process_file [] 0 "p.als" c1File c1Cat).2 = false ∧
    (process_file [] 0 "p.als" c1File c1Cat).1.projects.map
      (fun r => (r.identifier, r.file_hash)) = [(0, some "h0"), (1, some "H")] := by
  refine ⟨by decide, by decide⟩

/-- C1 witness: inserting a fresh file into the empty catalog exercises case
(C) of the amended decision table. -/
theorem C1_decision_table_amended_witness :
    ∃ r2, findRowById (process_file [] 0 "p.als" c1File emptyCatalog).1
        emptyCatalog.nextProjectId = some r2 ∧
      r2.file_hash = some c1File.hash ∧ r2.path = "p.als" ∧
      r2.uuid = emptyCatalog.nextUuid ∧ r2.name = some (pathStem "p.als") := by
  have h2 : (process_file [] 0 "p.als" c1File emptyCatalog).2 = true := by decide
  have h1 : process_file [] 0 "p.als" c1File emptyCatalog =
      ((process_file [] 0 "p.als" c1File emptyCatalog).1, true) := by
    rw [← h2]
  exact ((C1_decision_table_amended [] 0 "p.als" c1File emptyCatalog (by decide)
    (by intro r hr; cases hr)).2.2 rfl rfl
    (process_file [] 0 "p.als" c1File emptyCatalog).1 h1).2

/-! ### Plugin-table invariants (claims C7 and C9) -/

/-- attach_plugin preserves any plugins-table property that is stable under
inserting a freshly constructed row whose (name, version) key is absent. -/
theorem attach_plugin_plugins_inv (inst : List String) (P : List PluginRow → Prop)
    (hS : ∀ (k : Nat) (nm ver : String) (cp : List PluginRow), P cp →
      cp.find? (fun q => decide (q.name = nm) && decide (q.version = ver)) = none →
      P (cp ++ [mkPlugin inst k nm ver]))
    (pid : Nat) (ver nm : String) (c : Catalog) (hP : P c.plugins) :
    P ((attach_plugin inst pid ver nm c).plugins) := by
  unfold attach_plugin
  cases h : findPlugin c nm ver with
  | some q => exact hP
  | none => exact hS c.nextPluginId nm ver c.plugins hP h

/-- One plugin loop of update_plugins preserves a stable plugins-table
property. -/
theorem foldl_attach_plugin_inv (inst : List String) (P : List PluginRow → Prop)
    (hS : ∀ (k : Nat) (nm ver : String) (cp : List PluginRow), P cp →
      cp.find? (fun q => decide (q.name = nm) && decide (q.version = ver)) = none →
      P (cp ++ [mkPlugin inst k nm ver]))
    (pid : Nat) (ver : String) (nms : List String) : ∀ c : Catalog, P c.plugins →
    P ((nms.foldl (fun c nm => attach_plugin inst pid ver nm c) c).plugins) := by
  induction nms with
  | nil => intro c hP; exact hP
  | cons nm rest ih =>
      intro c hP
      exact ih (attach_plugin inst pid ver nm c) (attach_plugin_plugins_inv inst P hS pid ver nm c hP)

/-- liftRowStep never touches the plugins table. -/
theorem liftRowStep_plugInv (P : List PluginRow → Prop) (pid : Nat)
    (g : ProjectRow → Option ProjectRow) (s s2 : SessionState)
    (h : liftRowStep pid g s = some s2)
    (h1 : P s.cat.plugins) (h2 : P s.committed.plugins) :
    P s2.cat.plugins ∧ P s2.committed.plugins := by
  obtain ⟨r, r2, _, _, hs2⟩ := liftRowStep_facts pid g s s2 h
  subst hs2
  exact ⟨h1, h2⟩

/-- update_samples never touches the plugins table (in memory or durably). -/
theorem update_samples_step_plugInv (P : List PluginRow → Prop) (pid : Nat)
    (s s2 : SessionState) (h : update_samples_step pid s = some s2)
    (h1 : P s.cat.plugins) (h2 : P s.committed.plugins) :
    P s2.cat.plugins ∧ P s2.committed.plugins := by
  cases h0 : findRowById s.cat pid with
  | none => simp [update_samples_step, h0] at h
  | some r =>
      cases hm : r.major_minor_patch with
      | none => simp [update_samples_step, h0, hm] at h
      | some v =>
          cases hx : r.xml_root with
          | none => simp [update_samples_step, h0, hm, hx] at h
          | some root =>
              cases hp : samplePathsOf v.1 root with
              | none => simp [update_samples_step, h0, hm, hx, hp] at h
              | some paths =>
                  cases paths with
                  | nil =>
                      simp only [update_samples_step, h0, hm, hx, hp,
                        Option.some.injEq] at h
                      subst h
                      exact ⟨h1, h2⟩
                  | cons p rest =>
                      simp only [update_samples_step, h0, hm, hx, hp] at h
                      obtain ⟨hcat, hcom, _⟩ := commitS_facts _ _ h
                      have hfold : ((p :: rest).foldl
                          (fun c q => attach_sample pid q c) s.cat).plugins =
                          s.cat.plugins :=
                        (foldl_attach_sample_frame pid (p :: rest) s.cat).2.2.1
                      constructor
                      · rw [hcat]
                        show P ((p :: rest).foldl (fun c q => attach_sample pid q c)
                          s.cat).plugins
                        rw [hfold]
                        exact h1
                      · rw [hcom]
                        show P ((p :: rest).foldl (fun c q => attach_sample pid q c)
                          s.cat).plugins
                        rw [hfold]
                        exact h1

/-- update_plugins preserves a stable plugins-table property, in memory and
durably. -/
theorem update_plugins_step_plugInv (inst : List String) (P : List PluginRow → Prop)
    (hS : ∀ (k : Nat) (nm ver : String) (cp : List PluginRow), P cp →
      cp.find? (fun q => decide (q.name = nm) && decide (q.version = ver)) = none →
      P (cp ++ [mkPlugin inst k nm ver]))
    (pid : Nat) (s s2 : SessionState) (h : update_plugins_step inst pid s = some s2)
    (h1 : P s.cat.plugins) (_h2 : P s.committed.plugins) :
    P s2.cat.plugins ∧ P s2.committed.plugins := by
  cases h0 : findRowById s.cat pid with
  | none => simp [update_plugins_step, h0] at h
  | some r =>
      cases hx : r.xml_root with
      | none => simp [update_plugins_step, h0, hx] at h
      | some root =>
          cases hn : pluginNamesOf root with
          | none => simp [update_plugins_step, h0, hx, hn] at h
          | some nv =>
              simp only [update_plugins_step, h0, hx, hn] at h
              obtain ⟨hcat, hcom, _⟩ := commitS_facts _ _ h
              have hP1 := foldl_attach_plugin_inv inst P hS pid "VST" nv.1 s.cat h1
              have hP2 := foldl_attach_plugin_inv inst P hS pid "VST3" nv.2
                (nv.1.foldl (fun c nm => attach_plugin inst pid "VST" nm c) s.cat) hP1
              exact ⟨by rw [hcat]; exact hP2, by rw [hcom]; exact hP2⟩

/-- parse_all preserves a stable plugins-table property, whatever its
outcome. -/
theorem parse_all_plugInv (inst : List String) (P : List PluginRow → Prop)
    (hS : ∀ (k : Nat) (nm ver : String) (cp : List PluginRow), P cp →
      cp.find? (fun q => decide (q.name = nm) && decide (q.version = ver)) = none →
      P (cp ++ [mkPlugin inst k nm ver]))
    (now : Nat) (f : ALSFile) (pid : Nat) (s s1 : SessionState) (ok : Bool)
    (h : parse_all inst now f pid s = (s1, ok))
    (h1 : P s.cat.plugins) (h2 : P s.committed.plugins) :
    P s1.cat.plugins ∧ P s1.committed.plugins := by
  cases hA : liftRowStep pid (rowPhase1 now f) s with
  | none =>
      simp only [parse_all, hA, Prod.mk.injEq] at h
      rw [← h.1]
      exact ⟨h2, h2⟩
  | some sA =>
      obtain ⟨hA1, hA2⟩ := liftRowStep_plugInv P pid (rowPhase1 now f) s sA hA h1 h2
      cases hB : update_samples_step pid sA with
      | none =>
          simp only [parse_all, hA, hB, Prod.mk.injEq] at h
          rw [← h.1]
          exact ⟨hA2, hA2⟩
      | some sB =>
          obtain ⟨hB1, hB2⟩ := update_samples_step_plugInv P pid sA sB hB hA1 hA2
          cases hC : update_plugins_step inst pid sB with
          | none =>
              simp only [parse_all, hA, hB, hC, Prod.mk.injEq] at h
              rw [← h.1]
              exact ⟨hB2, hB2⟩
          | some sC =>
              obtain ⟨hC1, hC2⟩ :=
                update_plugins_step_plugInv inst P hS pid sB sC hC hB1 hB2
              cases hD : liftRowStep pid (rowPhase2 f) sC with
              | none =>
                  simp only [parse_all, hA, hB, hC, hD, Prod.mk.injEq] at h
                  rw [← h.1]
                  exact ⟨hC2, hC2⟩
              | some s4 =>
                  obtain ⟨hD1, hD2⟩ :=
                    liftRowStep_plugInv P pid (rowPhase2 f) sC s4 hD hC1 hC2
                  simp only [parse_all, hA, hB, hC, hD, Prod.mk.injEq] at h
                  rw [← h.1]
                  exact ⟨hD1, hD2⟩

/-- process_file preserves a stable plugins-table property. -/
theorem process_file_plugInv (inst : List String) (P : List PluginRow → Prop)
    (hS : ∀ (k : Nat) (nm ver : String) (cp : List PluginRow), P cp →
      cp.find? (fun q => decide (q.name = nm) && decide (q.version = ver)) = none →
      P (cp ++ [mkPlugin inst k nm ver]))
    (now : Nat) (p : String) (f : ALSFile) (c c2 : Catalog) (b : Bool)
    (h : process_file inst now p f c = (c2, b)) (hP : P c.plugins) :
    P c2.plugins := by
  cases hrp : findRowByPath c p with
  | some row =>
      simp only [process_file, hrp] at h
      rcases hps : parse_all inst now f row.identifier ⟨c, c⟩ with ⟨s1, ok⟩
      obtain ⟨hp1, hp2⟩ := parse_all_plugInv inst P hS now f row.identifier
        ⟨c, c⟩ s1 ok hps hP hP
      rw [hps] at h
      cases ok with
      | false =>
          simp only [Prod.mk.injEq] at h
          rw [← h.1]
          exact hp2
      | true =>
          cases hcm : commitS { s1 with
              cat := modifyRow s1.cat row.identifier (withHash f.hash) } with
          | none =>
              simp only [hcm] at h
              simp only [Prod.mk.injEq] at h
              rw [← h.1]
              exact hp2
          | some s2 =>
              simp only [hcm] at h
              simp only [Prod.mk.injEq] at h
              obtain ⟨_, hcom, _⟩ := commitS_facts _ _ hcm
              rw [← h.1, hcom]
              exact hp1
  | none =>
      cases hrh : findRowByHash c f.hash with
      | some row =>
          simp only [process_file, hrp, hrh] at h
          by_cases hck : commitCheck (modifyRow c row.identifier
              (fun r => { r with path := p })) = true
          · rw [if_pos hck] at h
            simp only [Prod.mk.injEq] at h
            rw [← h.1]
            exact hP
          · rw [if_neg hck] at h
            simp only [Prod.mk.injEq] at h
            rw [← h.1]
            exact hP
      | none =>
          simp only [process_file, hrp, hrh] at h
          rcases hps : parse_all inst now f
              (newRow c.nextProjectId c.nextUuid p).identifier
              ⟨{ c with projects := c.projects ++ [newRow c.nextProjectId c.nextUuid p],
                        nextProjectId := c.nextProjectId + 1,
                        nextUuid := c.nextUuid + 1 }, c⟩ with ⟨s1, ok⟩
          obtain ⟨hp1, hp2⟩ := parse_all_plugInv inst P hS now f
            (newRow c.nextProjectId c.nextUuid p).identifier _ s1 ok hps hP hP
          rw [hps] at h
          cases ok with
          | false =>
              simp only [Prod.mk.injEq] at h
              rw [← h.1]
              exact hp2
          | true =>
              cases hcm : commitS { s1 with
                  cat := modifyRow s1.cat (newRow c.nextProjectId c.nextUuid p).identifier
                    (withHash f.hash) } with
              | none =>
                  simp only [hcm] at h
                  simp only [Prod.mk.injEq] at h
                  rw [← h.1]
                  exact hp2
              | some s2 =>
                  simp only [hcm] at h
                  simp only [Prod.mk.injEq] at h
                  obtain ⟨_, hcom, _⟩ := commitS_facts _ _ hcm
                  rw [← h.1, hcom]
                  exact hp1

/-- A whole scan preserves a stable plugins-table property. -/
theorem runEvents_plugInv (inst : List String) (P : List PluginRow → Prop)
    (hS : ∀ (k : Nat) (nm ver : String) (cp : List PluginRow), P cp →
      cp.find? (fun q => decide (q.name = nm) && decide (q.version = ver)) = none →
      P (cp ++ [mkPlugin inst k nm ver]))
    (now : Nat) (evs : List (String × ALSFile)) : ∀ c : Catalog, P c.plugins →
    P (runEvents inst now evs c).plugins := by
  induction evs with
  | nil => intro c hP; exact hP
  | cons ev rest ih =>
      intro c hP
      show P (runEvents inst now (ev :: rest) c).plugins
      rcases hpf : process_file inst now ev.1 ev.2 c with ⟨c2, b⟩
      have hP2 := process_file_plugInv inst P hS now ev.1 ev.2 c c2 b hpf hP
      cases b with
      | true =>
          have : runEvents inst now (ev :: rest) c = runEvents inst now rest c2 := by
            show (match process_file inst now ev.1 ev.2 c with
              | (c2, true) => runEvents inst now rest c2
              | (c2, false) => c2) = runEvents inst now rest c2
            rw [hpf]
          rw [this]
          exact ih c2 hP2
      | false =>
          have : runEvents inst now (ev :: rest) c = c2 := by
            show (match process_file inst now ev.1 ev.2 c with
              | (c2, true) => runEvents inst now rest c2
              | (c2, false) => c2) = c2
            rw [hpf]
          rw [this]
          exact hP2

/-! ### Claim C9 -/

/-- C9 (amended): the plugin-name inventory list is read once, when the
Plugin class body is evaluated at module import (it is a class attribute, not
re-read per insertion).  Every plugin row a scan adds has its installed flag
computed against that single module-lifetime list: staleness is bounded by
the process lifetime, not by a reconciliation pass. -/
theorem C9_installed_flag_amended (inst : List String) (now : Nat)
    (evs : List (String × ALSFile)) (c : Catalog)
    (h : ∀ q ∈ c.plugins, q.installed = decide (q.name ∈ inst)) :
    ∀ q ∈ (runEvents inst now evs c).plugins, q.installed = decide (q.name ∈ inst) := by
  refine runEvents_plugInv inst
    (fun cp => ∀ q ∈ cp, q.installed = decide (q.name ∈ inst)) ?_ now evs c h
  intro k nm ver cp hP hfind q hq
  rcases List.mem_append.mp hq with hold | hnew
  · exact hP q hold
  · rw [List.mem_singleton] at hnew
    subst hnew
    rfl

/-- A parseable Live 11 project that references the VST3 plugin Serum. -/
def serumXml : XElem :=
  .mk "Ableton" [("Creator", "Ableton Live 11.0.0")] none
    [.mk "LiveSet" [] none
      [.mk "MasterTrack" [] none
        [.mk "DeviceChain" [] none
          [.mk "Mixer" [] none
            [.mk "Tempo" [] none
              [.mk "Manual" [("Value", "120.0")] none []]]]],
       .mk "EnumEvent" [("Time", "-63072000"), ("Value", "3")] none [],
       .mk "Vst3PluginInfo" [] none [.mk "Name" [("Value", "Serum")] none []]]]

/-- A file whose content is serumXml. -/
def c9File : ALSFile := ⟨"H9", some serumXml, some 1, some 2, some (11, 0, 0)⟩

/-- C9 counterexample: the list is not refreshed on insertion.  The inventory
read at import was empty; by the time the scan inserts the Serum row the
refreshed inventory would list Serum, yet the inserted row carries
installed = false, so the claimed iff against the refreshed list fails. -/
theorem C9_installed_flag_counterexample :
    (runEvents [] 0 [("s.als", c9File)] emptyCatalog).plugins =
      [⟨0, "Serum", "VST3", false⟩] ∧
    ¬ (∀ q ∈ (runEvents [] 0 [("s.als", c9File)] emptyCatalog).plugins,
        (q.installed = true ↔ q.name ∈ ["Serum"])) := by
  exact ⟨by decide, by decide⟩

/-- C9 witness: with Serum present in the import-time list, the inserted row
is flagged installed. -/
theorem C9_installed_flag_amended_witness :
    PluginRow.installed ⟨0, "Serum", "VST3", true⟩ =
      decide (PluginRow.name ⟨0, "Serum", "VST3", true⟩ ∈ ["Serum"]) ∧
    PluginRow.mk 0 "Serum" "VST3" true ∈
      (runEvents ["Serum"] 0 [("s.als", c9File)] emptyCatalog).plugins := by
  refine ⟨?_, by decide⟩
  exact C9_installed_flag_amended ["Serum"] 0 [("s.als", c9File)] emptyCatalog
    (by decide) ⟨0, "Serum", "VST3", true⟩ (by decide)

/-! ### Claim C7 -/

/-- C7: plugin rows are deduplicated by (name, version family): update_plugins
inserts a row only after filter_by(name, version) comes back empty, so a scan
preserves pairwise distinctness of the (name, version) keys. -/
theorem C7_plugin_dedup (inst : List String) (now : Nat)
    (evs : List (String × ALSFile)) (c : Catalog)
    (h : (c.plugins.map (fun q => (q.name, q.version))).Nodup) :
    ((runEvents inst now evs c).plugins.map (fun q => (q.name, q.version))).Nodup := by
  refine runEvents_plugInv inst
    (fun cp => (cp.map (fun q => (q.name, q.version))).Nodup) ?_ now evs c h
  intro k nm ver cp hP hfind
  rw [List.map_append, List.map_cons, List.map_nil, List.nodup_append]
  refine ⟨hP, List.nodup_singleton _, ?_⟩
  intro a ha hb
  rw [List.mem_singleton] at hb
  obtain ⟨q, hq, hqa⟩ := List.mem_map.mp ha
  have hnone := List.find?_eq_none.mp hfind q hq
  apply hnone
  have hpair : a = (nm, ver) := by rw [hb]; rfl
  rw [hpair] at hqa
  rw [Bool.and_eq_true, decide_eq_true_eq, decide_eq_true_eq]
  exact ⟨congrArg Prod.fst hqa, congrArg Prod.snd hqa⟩

/-- A second Serum project with different content (hence a different hash). -/
def c7FileB : ALSFile := ⟨"H7", some serumXml, some 3, some 4, some (11, 0, 0)⟩

/-- C7 witness: two projects both referencing Vst3PluginInfo Serum give one
plugin row with key (Serum, VST3), linked from both projects. -/
theorem C7_plugin_dedup_witness :
    ((runEvents [] 0 [("a.als", c9File), ("b.als", c7FileB)] emptyCatalog).plugins.map
        (fun q => (q.name, q.version))).Nodup ∧
    (runEvents [] 0 [("a.als", c9File), ("b.als", c7FileB)] emptyCatalog).plugins.map
        (fun q => (q.name, q.version)) = [("Serum", "VST3")] ∧
    (runEvents [] 0 [("a.als", c9File), ("b.als", c7FileB)] emptyCatalog).projects.map
        (fun r => (r.path, r.pluginIds)) = [("a.als", [0]), ("b.als", [0])] := by
  refine ⟨C7_plugin_dedup [] 0 [("a.als", c9File), ("b.als", c7FileB)] emptyCatalog
    (by decide), by decide, by decide⟩

/-! ### Success lemmas for a second pass over an unchanged file (claim C6) -/

/-- Integer division by a nonzero integer does not raise. -/
theorem pyDivInt_some (a : PyF) (n : Int) (h : n ≠ 0) : ∃ b, pyDivInt a n = some b := by
  unfold pyDivInt
  rw [if_neg h]
  exact ⟨_, rfl⟩

/-- Float division by a nonzero float does not raise. -/
theorem pyDivO_some (a b : PyF) (h : pyIsZero b = false) : ∃ d, pyDivO a b = some d := by
  have hb : ¬ b.num = 0 := by
    intro hz
    rw [pyIsZero, hz] at h
    simp at h
  unfold pyDivO
  rw [if_neg hb]
  exact ⟨_, rfl⟩

/-- The decoded numerator is at least 1. -/
theorem decode_numerator_pos (v : Int) : 0 < decode_numerator v := by
  unfold decode_numerator
  by_cases h1 : v < 0
  · rw [if_pos h1]; decide
  · rw [if_neg h1]
    by_cases h2 : v < 99
    · rw [if_pos h2]
      omega
    · rw [if_neg h2]
      have h3 := Int.emod_nonneg v (by decide : (99 : Int) ≠ 0)
      show 0 < v % 99 + 1
      linarith

/-- A decoded time signature always carries a positive numerator. -/
theorem tsOf_num_pos (root : XElem) (ts : Int × PyF) (h : tsOf root = some ts) :
    0 < ts.1 := by
  cases hf : (descendants root).find?
      (fun e => decide (e.tag = "EnumEvent") && decide (attrOf e "Time" = some "-63072000")) with
  | none => simp [tsOf, hf] at h
  | some ev =>
      simp only [tsOf, hf] at h
      cases ha : attrOf ev "Value" with
      | none => simp [ha] at h
      | some s =>
          simp only [ha] at h
          cases hp : parseInt s with
          | none => simp [hp] at h
          | some v =>
              simp only [hp, Option.map_some', Option.some.injEq] at h
              obtain rfl := h
              exact decode_numerator_pos v

/-- Beats per bar depend only on the stored time signature. -/
theorem beatsPerBar_congr (a b : ProjectRow) (h : a.time_signature = b.time_signature) :
    beatsPerBar a = beatsPerBar b := by
  unfold beatsPerBar
  rw [h]

/-- calculate_duration never raises: missing or falsy operands return early
and a nonzero tempo divides cleanly. -/
theorem calculate_duration_total (r : ProjectRow) : ∃ r2, calculate_duration r = some r2 := by
  rcases hA : r.time_signature with _ | ts <;>
    rcases hB : r.tempo with _ | t <;>
      rcases hC : r.furthest_bar with _ | fb <;>
        simp only [calculate_duration, hA, hB, hC]
  case some.some.some =>
    by_cases hz : (pyIsZero t || pyIsZero fb) = true
    · rw [if_pos hz]
      exact ⟨r, rfl⟩
    · rw [if_neg hz]
      have ht0 : pyIsZero t = false := by
        cases hx : pyIsZero t with
        | false => rfl
        | true => rw [Bool.or_eq_true] at hz; exact absurd (Or.inl hx) hz
      obtain ⟨d, hd⟩ := pyDivO_some (pyMulInt (pyMulInt fb ts.1) 60) t ht0
      rw [hd]
      exact ⟨_, rfl⟩
  all_goals exact ⟨r, rfl⟩

/-- load_version succeeds on a tree with a Creator attribute matched by the
version regex. -/
theorem load_version_success (f : ALSFile) (r : ProjectRow) (root : XElem) (cs : String)
    (v : Int × Int × Int) (hx : r.xml_root = some root)
    (hcre : attrOf root "Creator" = some cs) (hver : f.creatorVersion = some v) :
    load_version f r = some { r with creator := some cs, major_minor_patch := some v,
                                     major_version := some v.1,
                                     minor_version := some v.2.1 } := by
  simp only [load_version, hx, hcre, hver]

/-- update_tempo succeeds when the version-appropriate tempo element parses,
touching neither the time signature nor the xml root. -/
theorem update_tempo_success (r : ProjectRow) (root : XElem) (v : Int × Int × Int) (t : PyF)
    (hm : r.major_minor_patch = some v) (hv82 : verLt v (8, 2, 0) = false)
    (hx : r.xml_root = some root) (htv : tempoValueOf v root = some t) :
    ∃ r2, update_tempo r = some r2 ∧ r2.time_signature = r.time_signature ∧
      r2.xml_root = r.xml_root := by
  cases hrt : r.tempo with
  | none =>
      refine ⟨{ r with tempo := some (round6 t) }, ?_, rfl, rfl⟩
      simp only [update_tempo, hm, hv82, hx, htv, hrt, Bool.false_eq_true, if_false]
  | some prev =>
      by_cases hpe : pyEq (round6 t) prev = true
      · refine ⟨r, ?_, rfl, rfl⟩
        simp only [update_tempo, hm, hv82, hx, htv, hrt, Bool.false_eq_true, if_false,
          if_pos hpe]
      · refine ⟨{ r with tempo := some (round6 t) }, ?_, rfl, rfl⟩
        simp only [update_tempo, hm, hv82, hx, htv, hrt, Bool.false_eq_true, if_false,
          if_neg hpe]

/-- update_furthest_bar succeeds when every CurrentEnd parses and the beats
per bar are nonzero. -/
theorem update_furthest_bar_success (r : ProjectRow) (root : XElem) (ends : List PyF)
    (hx : r.xml_root = some root)
    (hends : parseEnds (iterTag root "CurrentEnd") = some ends)
    (hbb : beatsPerBar r ≠ 0) : ∃ r2, update_furthest_bar r = some r2 := by
  simp only [update_furthest_bar, hx, hends]
  cases ends with
  | nil => exact ⟨_, rfl⟩
  | cons x rest =>
      obtain ⟨fb, hfb⟩ := pyDivInt_some (pyMaxList x rest) (beatsPerBar r) hbb
      simp only [hfb]
      exact ⟨_, rfl⟩

/-- The first three parse_all steps (name, file times, xml load) combined. -/
theorem prep_facts (now : Nat) (f : ALSFile) (r : ProjectRow) (root : XElem)
    (hsuf : pathSuffix r.path = ".als") (hxml : f.xml = some root) :
    ∃ ct mt, load_xml_data f (update_file_times now f (update_name r)) =
      { r with name := some (pathStem r.path), creation_time := ct,
               last_modification_time := mt, xml_root := some root } := by
  have hxo : xmlOf r.path f = some root := by
    unfold xmlOf
    rw [hsuf, if_pos rfl, hxml]
  obtain ⟨ct, mt, hB⟩ := update_file_times_eq now f (update_name r)
  refine ⟨ct, mt, ?_⟩
  rw [load_xml_data_eq, hB, update_name_eq]
  show ({ r with
      name := some (pathStem r.path),
      creation_time := ct,
      last_modification_time := mt,
      xml_root := xmlOf r.path f } : ProjectRow) = _
  rw [hxo]

/-- rowPhase1 succeeds on a parseable file whose stored beats per bar are
nonzero. -/
theorem rowPhase1_success (now : Nat) (f : ALSFile) (r : ProjectRow) (root : XElem)
    (cs : String) (v : Int × Int × Int) (t : PyF) (ends : List PyF)
    (hsuf : pathSuffix r.path = ".als") (hxml : f.xml = some root)
    (hcre : attrOf root "Creator" = some cs) (hver : f.creatorVersion = some v)
    (hv82 : verLt v (8, 2, 0) = false) (htv : tempoValueOf v root = some t)
    (hends : parseEnds (iterTag root "CurrentEnd") = some ends)
    (hbb : beatsPerBar r ≠ 0) :
    ∃ r2, rowPhase1 now f r = some r2 := by
  obtain ⟨ct, mt, hprep⟩ := prep_facts now f r root hsuf hxml
  have hLV : load_version f (load_xml_data f (update_file_times now f (update_name r))) =
      some { r with
        name := some (pathStem r.path),
        creation_time := ct,
        last_modification_time := mt,
        xml_root := some root,
        creator := some cs,
        major_minor_patch := some v,
        major_version := some v.1,
        minor_version := some v.2.1 } := by
    rw [hprep]
    exact load_version_success f _ root cs v rfl hcre hver
  obtain ⟨rE, hE, hEts, hEx⟩ := update_tempo_success
    { r with
      name := some (pathStem r.path),
      creation_time := ct,
      last_modification_time := mt,
      xml_root := some root,
      creator := some cs,
      major_minor_patch := some v,
      major_version := some v.1,
      minor_version := some v.2.1 }
    root v t rfl hv82 rfl htv
  have hbbE : beatsPerBar rE ≠ 0 := by
    rw [beatsPerBar_congr rE r (by rw [hEts])]
    exact hbb
  obtain ⟨rF, hF⟩ := update_furthest_bar_success rE root ends (by rw [hEx]) hends hbbE
  refine ⟨rF, ?_⟩
  simp only [rowPhase1, hLV, hE, hF]

/-- rowPhase2 succeeds whenever the key extractor and the time-signature
lookup do. -/
theorem rowPhase2_success (f : ALSFile) (r : ProjectRow) (root : XElem)
    (ts : Int × PyF) (k : String)
    (hkey : keyOf r.major_version r.xml_root = some k)
    (hx : r.xml_root = some root) (hts : tsOf root = some ts) :
    ∃ r2, rowPhase2 f r = some r2 := by
  have h1 : update_key_row r = some { r with key := some k } := by
    simp only [update_key_row, hkey]
  have h2 : update_time_signature_row { r with key := some k } =
      some { r with key := some k, time_signature := some ts } := by
    simp only [update_time_signature_row, hx, hts]
  obtain ⟨rC, h3⟩ := calculate_duration_total { r with
    key := some k,
    time_signature := some ts }
  refine ⟨generate_file_hash f rC, ?_⟩
  simp only [rowPhase2, h1, h2, h3]

/-- liftRowStep applied to a resolvable row and a succeeding transformation. -/
theorem liftRowStep_success (pid : Nat) (g : ProjectRow → Option ProjectRow)
    (s : SessionState) (r r2 : ProjectRow)
    (hfr : findRowById s.cat pid = some r) (hg : g r = some r2) :
    liftRowStep pid g s = some { s with cat := modifyRow s.cat pid (fun _ => r2) } := by
  simp only [liftRowStep, hfr, hg]

/-- With pairwise-distinct identifiers, two members sharing an identifier are
the same row. -/
theorem mem_id_eq_of_nodup (l : List ProjectRow)
    (hnd : (l.map (fun r => r.identifier)).Nodup) (a b : ProjectRow)
    (ha : a ∈ l) (hb : b ∈ l) (h : a.identifier = b.identifier) : a = b :=
  List.inj_on_of_nodup_map hnd ha hb h

/-- An in-place update that fixes every addressed member is the identity. -/
theorem modifyRow_id_noop (c : Catalog) (pid : Nat) (g : ProjectRow → ProjectRow)
    (h : ∀ r ∈ c.projects, r.identifier = pid → g r = r) : modifyRow c pid g = c := by
  have hm : ∀ l : List ProjectRow, (∀ r ∈ l, r.identifier = pid → g r = r) →
      l.map (fun r => if r.identifier = pid then g r else r) = l := by
    intro l
    induction l with
    | nil => intro _; rfl
    | cons a tl ih =>
        intro hl
        rw [List.map_cons, ih (fun r hr hh => hl r (List.mem_cons_of_mem a hr) hh)]
        by_cases ha : a.identifier = pid
        · rw [if_pos ha, hl a (List.mem_cons_self a tl) ha]
        · rw [if_neg ha]
  unfold modifyRow
  rw [hm c.projects h]

/-- Two successive in-place overwrites of the same row collapse to the second
overwrite of the composite. -/
theorem modifyRow_comp_const (c : Catalog) (pid : Nat) (r1 : ProjectRow)
    (hid : r1.identifier = pid) (g : ProjectRow → ProjectRow) :
    modifyRow (modifyRow c pid (fun _ => r1)) pid g =
      modifyRow c pid (fun _ => g r1) := by
  unfold modifyRow
  congr 1
  rw [List.map_map]
  apply List.map_congr_left
  intro r _
  by_cases h : r.identifier = pid
  · simp [h, hid]
  · simp [h]

/-- Mapping a projection through an in-place update that preserves it on the
addressed members. -/
theorem map_if_id_proj_mem {β : Type} (proj : ProjectRow → β) (l : List ProjectRow)
    (pid : Nat) (g : ProjectRow → ProjectRow)
    (hg : ∀ r ∈ l, r.identifier = pid → proj (g r) = proj r) :
    (l.map (fun r => if r.identifier = pid then g r else r)).map proj = l.map proj := by
  rw [List.map_map]
  apply List.map_congr_left
  intro r hr
  by_cases h : r.identifier = pid
  · simp only [Function.comp_apply, if_pos h]
    exact hg r hr h
  · simp only [Function.comp_apply, if_neg h]

/-- filterMap through an in-place update that preserves the projection on the
addressed members. -/
theorem filterMap_if_id {β : Type} (proj : ProjectRow → Option β) (l : List ProjectRow)
    (pid : Nat) (g : ProjectRow → ProjectRow)
    (hg : ∀ r ∈ l, r.identifier = pid → proj (g r) = proj r) :
    (l.map (fun r => if r.identifier = pid then g r else r)).filterMap proj =
      l.filterMap proj := by
  induction l with
  | nil => rfl
  | cons a tl ih =>
      have htl := ih (fun r hr h => hg r (List.mem_cons_of_mem a hr) h)
      by_cases ha : a.identifier = pid
      · simp only [List.map_cons, if_pos ha, List.filterMap_cons,
          hg a (List.mem_cons_self a tl) ha, htl]
      · simp only [List.map_cons, if_neg ha, List.filterMap_cons, htl]

/-- The commit-time constraints survive an in-place update that preserves the
identifier and the file hash of the addressed members. -/
theorem commitCheck_modifyRow_pres (c : Catalog) (pid : Nat) (g : ProjectRow → ProjectRow)
    (hid : ∀ r ∈ c.projects, r.identifier = pid → (g r).identifier = r.identifier)
    (hfh : ∀ r ∈ c.projects, r.identifier = pid → (g r).file_hash = r.file_hash) :
    commitCheck (modifyRow c pid g) = commitCheck c := by
  simp only [commitCheck, modifyRow]
  rw [map_if_id_proj_mem (fun r => r.identifier) c.projects pid g hid,
      filterMap_if_id (fun r => r.file_hash) c.projects pid g hfh]

/-- find?-by-path lands on the overwritten row when the overwrite targets the
found row's identifier and keeps the path. -/
theorem find?_path_map_if (l : List ProjectRow) (p : String) (r' : ProjectRow)
    (hf : l.find? (fun r => decide (r.path = p)) = some r')
    (pid : Nat) (hid : r'.identifier = pid)
    (hnd : (l.map (fun r => r.identifier)).Nodup)
    (R : ProjectRow) (hR : R.path = p) :
    (l.map (fun r => if r.identifier = pid then R else r)).find?
      (fun r => decide (r.path = p)) = some R := by
  induction l with
  | nil => exact Option.noConfusion hf
  | cons a tl ih =>
      rw [List.map_cons] at *
      rw [List.nodup_cons] at hnd
      rw [List.find?_cons] at hf
      by_cases ha : a.path = p
      · have hd : (decide (a.path = p)) = true := decide_eq_true ha
        simp only [hd] at hf
        obtain rfl := Option.some.inj hf
        rw [if_pos hid, List.find?_cons]
        have hdR : (decide (R.path = p)) = true := decide_eq_true hR
        simp only [hdR]
      · have hd : (decide (a.path = p)) = false := decide_eq_false ha
        simp only [hd] at hf
        have hmem : r' ∈ tl := List.mem_of_find?_eq_some hf
        have hane : ¬ (a.identifier = pid) := by
          intro he
          exact hnd.1 (by
            rw [he, ← hid]
            exact List.mem_map_of_mem (fun r => r.identifier) hmem)
        rw [if_neg hane, List.find?_cons]
        simp only [hd]
        exact ih hf hnd.2

/-- findRowByPath after overwriting the found row with a row at the same
path. -/
theorem findRowByPath_modifyRow_const (c : Catalog) (p : String) (r' : ProjectRow)
    (hf : findRowByPath c p = some r')
    (hnd : (c.projects.map (fun r => r.identifier)).Nodup)
    (R : ProjectRow) (hR : R.path = p) :
    findRowByPath (modifyRow c r'.identifier (fun _ => R)) p = some R :=
  find?_path_map_if c.projects p r' hf r'.identifier rfl hnd R hR

/-- Attaching an already-present, already-linked sample changes nothing. -/
theorem attach_sample_noop (pid : Nat) (q : String) (c : Catalog) (sm : SampleRow)
    (hfs : findSample c q = some sm)
    (hlink : ∀ r0 ∈ c.projects, r0.identifier = pid → sm.id ∈ r0.sampleIds) :
    attach_sample pid q c = c := by
  simp only [attach_sample, hfs]
  unfold linkSample
  apply modifyRow_id_noop
  intro r hr hid
  rw [if_pos (hlink r hr hid)]

/-- The sample loop is the identity when every path is present and linked. -/
theorem foldl_attach_sample_noop (pid : Nat) (paths : List String) : ∀ c : Catalog,
    (∀ q ∈ paths, ∃ sm, findSample c q = some sm ∧
      ∀ r0 ∈ c.projects, r0.identifier = pid → sm.id ∈ r0.sampleIds) →
    paths.foldl (fun c q => attach_sample pid q c) c = c := by
  induction paths with
  | nil => intro c _; rfl
  | cons q rest ih =>
      intro c h
      obtain ⟨sm, hfs, hlink⟩ := h q (List.mem_cons_self q rest)
      rw [List.foldl_cons, attach_sample_noop pid q c sm hfs hlink]
      exact ih c (fun q2 hq2 => h q2 (List.mem_cons_of_mem q hq2))

/-- Attaching an already-present, already-linked plugin changes nothing. -/
theorem attach_plugin_noop (inst : List String) (pid : Nat) (ver nm : String)
    (c : Catalog) (pl : PluginRow) (hfp : findPlugin c nm ver = some pl)
    (hlink : ∀ r0 ∈ c.projects, r0.identifier = pid → pl.id ∈ r0.pluginIds) :
    attach_plugin inst pid ver nm c = c := by
  simp only [attach_plugin, hfp]
  unfold linkPlugin
  apply modifyRow_id_noop
  intro r hr hid
  rw [if_pos (hlink r hr hid)]

/-- A plugin loop is the identity when every name is present and linked. -/
theorem foldl_attach_plugin_noop (inst : List String) (pid : Nat) (ver : String)
    (nms : List String) : ∀ c : Catalog,
    (∀ nm ∈ nms, ∃ pl, findPlugin c nm ver = some pl ∧
      ∀ r0 ∈ c.projects, r0.identifier = pid → pl.id ∈ r0.pluginIds) →
    nms.foldl (fun c nm => attach_plugin inst pid ver nm c) c = c := by
  induction nms with
  | nil => intro c _; rfl
  | cons nm rest ih =>
      intro c h
      obtain ⟨pl, hfp, hlink⟩ := h nm (List.mem_cons_self nm rest)
      rw [List.foldl_cons, attach_plugin_noop inst pid ver nm c pl hfp hlink]
      exact ih c (fun n2 hn2 => h n2 (List.mem_cons_of_mem nm hn2))

/-- update_samples on a fully attached row: it succeeds and leaves the
in-memory catalog unchanged. -/
theorem update_samples_step_noop (pid : Nat) (s : SessionState) (r : ProjectRow)
    (v : Int × Int × Int) (root : XElem) (paths : List String)
    (hfr : findRowById s.cat pid = some r)
    (hm : r.major_minor_patch = some v) (hx : r.xml_root = some root)
    (hsp : samplePathsOf v.1 root = some paths)
    (hAtt : ∀ q ∈ paths, ∃ sm, findSample s.cat q = some sm ∧
      ∀ r0 ∈ s.cat.projects, r0.identifier = pid → sm.id ∈ r0.sampleIds)
    (hck : commitCheck s.cat = true) :
    ∃ s2, update_samples_step pid s = some s2 ∧ s2.cat = s.cat := by
  simp only [update_samples_step, hfr, hm, hx, hsp]
  cases paths with
  | nil => exact ⟨s, rfl, rfl⟩
  | cons q rest =>
      rw [foldl_attach_sample_noop pid (q :: rest) s.cat hAtt]
      refine ⟨⟨s.cat, s.cat⟩, ?_, rfl⟩
      unfold commitS
      rw [if_pos hck]

/-- update_plugins on a fully attached row: it succeeds and leaves the
in-memory catalog unchanged. -/
theorem update_plugins_step_noop (inst : List String) (pid : Nat) (s : SessionState)
    (r : ProjectRow) (root : XElem) (vsts v3s : List String)
    (hfr : findRowById s.cat pid = some r) (hx : r.xml_root = some root)
    (hpn : pluginNamesOf root = some (vsts, v3s))
    (hv : ∀ nm ∈ vsts, ∃ pl, findPlugin s.cat nm "VST" = some pl ∧
      ∀ r0 ∈ s.cat.projects, r0.identifier = pid → pl.id ∈ r0.pluginIds)
    (h3 : ∀ nm ∈ v3s, ∃ pl, findPlugin s.cat nm "VST3" = some pl ∧
      ∀ r0 ∈ s.cat.projects, r0.identifier = pid → pl.id ∈ r0.pluginIds)
    (hck : commitCheck s.cat = true) :
    ∃ s2, update_plugins_step inst pid s = some s2 ∧ s2.cat = s.cat := by
  simp only [update_plugins_step, hfr, hx, hpn]
  rw [foldl_attach_plugin_noop inst pid "VST" vsts s.cat hv,
      foldl_attach_plugin_noop inst pid "VST3" v3s s.cat h3]
  refine ⟨⟨s.cat, s.cat⟩, ?_, rfl⟩
  unfold commitS
  rw [if_pos hck]

/-! ### Claim C6 -/

/-- C6: re-reconciling a path whose content is unchanged is a no-op on
catalog content.  The hypotheses say the committed catalog already reflects
the file at that path: the row found by path carries the file's hash, its
stored time signature is the one decoded from the file, and every sample
path and plugin name extracted from the file is present in its table and
linked to the row.  The second pass then commits successfully, the plugins
and samples tables are unchanged, and the row keeps its file_hash and its
plugin and sample link sets. -/
theorem C6_reconcile_unchanged_noop (inst : List String) (now : Nat) (p : String)
    (f : ALSFile) (c1 : Catalog) (r' : ProjectRow) (root : XElem) (cs : String)
    (v : Int × Int × Int) (t : PyF) (ends : List PyF) (ts : Int × PyF) (k : String)
    (paths : List String) (vsts v3s : List String)
    (hck : commitCheck c1 = true)
    (hfind : findRowByPath c1 p = some r')
    (hsuf : pathSuffix p = ".als")
    (hxml : f.xml = some root)
    (hcre : attrOf root "Creator" = some cs)
    (hver : f.creatorVersion = some v)
    (hv82 : verLt v (8, 2, 0) = false)
    (htv : tempoValueOf v root = some t)
    (hends : parseEnds (iterTag root "CurrentEnd") = some ends)
    (hts : tsOf root = some ts)
    (hrts : r'.time_signature = some ts)
    (hkey : keyOf (some v.1) (some root) = some k)
    (hsp : samplePathsOf v.1 root = some paths)
    (hsAtt : ∀ q ∈ paths, ∃ sm ∈ c1.samples, findSample c1 q = some sm ∧
      sm.id ∈ r'.sampleIds)
    (hpn : pluginNamesOf root = some (vsts, v3s))
    (hvAtt : ∀ nm ∈ vsts, ∃ pl ∈ c1.plugins, findPlugin c1 nm "VST" = some pl ∧
      pl.id ∈ r'.pluginIds)
    (h3Att : ∀ nm ∈ v3s, ∃ pl ∈ c1.plugins, findPlugin c1 nm "VST3" = some pl ∧
      pl.id ∈ r'.pluginIds)
    (hhash : r'.file_hash = some f.hash) :
    ∃ c2, process_file inst now p f c1 = (c2, true) ∧
      c2.plugins = c1.plugins ∧ c2.samples = c1.samples ∧
      ∃ r2, findRowByPath c2 p = some r2 ∧ r2.file_hash = r'.file_hash ∧
        r2.pluginIds = r'.pluginIds ∧ r2.sampleIds = r'.sampleIds := by
  have hnodup : (c1.projects.map (fun r => r.identifier)).Nodup := by
    have h := hck
    simp only [commitCheck, Bool.and_eq_true] at h
    exact (allDistinct_iff_nodup _).mp h.1.1.1
  have hmem : r' ∈ c1.projects := List.mem_of_find?_eq_some hfind
  have hpath : r'.path = p := by
    have h := List.find?_some hfind
    simpa using h
  have hfr : findRowById c1 r'.identifier = some r' :=
    find?_id_of_nodup c1.projects r' hnodup hmem
  have huniq : ∀ r0 ∈ c1.projects, r0.identifier = r'.identifier → r0 = r' :=
    fun r0 hr0 hr0id => mem_id_eq_of_nodup c1.projects hnodup r0 r' hr0 hmem hr0id
  -- phase 1 succeeds and its output row
  have hbb : beatsPerBar r' ≠ 0 := by
    simp only [beatsPerBar, hrts]
    have h := tsOf_num_pos root ts hts
    omega
  obtain ⟨r1, hP1⟩ := rowPhase1_success now f r' root cs v t ends
    (by rw [hpath]; exact hsuf) hxml hcre hver hv82 htv hends hbb
  obtain ⟨ct, mt, cs2, tp, fb, v2, hv2, hr1⟩ := rowPhase1_facts now f r' r1 hP1
  rw [hver] at hv2
  have hvv : v = v2 := Option.some.inj hv2
  subst hvv
  have hxo : xmlOf r'.path f = some root := by
    rw [hpath]
    unfold xmlOf
    rw [hsuf, if_pos rfl, hxml]
  have hid1 : r1.identifier = r'.identifier := by rw [hr1]
  have hpath1 : r1.path = r'.path := by rw [hr1]
  have hhash1 : r1.file_hash = r'.file_hash := by rw [hr1]
  have hplug1 : r1.pluginIds = r'.pluginIds := by rw [hr1]
  have hsamp1 : r1.sampleIds = r'.sampleIds := by rw [hr1]
  have hmmp1 : r1.major_minor_patch = some v := by rw [hr1]
  have hmv1 : r1.major_version = some v.1 := by rw [hr1]
  have hx1 : r1.xml_root = some root := by
    rw [hr1]
    exact hxo
  -- the first in-place update
  have hA := liftRowStep_success r'.identifier (rowPhase1 now f) ⟨c1, c1⟩ r' r1 hfr hP1
  have hfrA : findRowById (modifyRow c1 r'.identifier (fun _ => r1)) r'.identifier =
      some r1 := by
    have h := findRowById_modifyRow c1 r'.identifier (fun _ => r1) (fun r _ => hid1)
    rw [hfr] at h
    exact h
  have hckA : commitCheck (modifyRow c1 r'.identifier (fun _ => r1)) = true := by
    rw [commitCheck_modifyRow_pres c1 r'.identifier (fun _ => r1)
      (fun r hr hid => by rw [hid1, hid])
      (fun r hr hid => by rw [hhash1, huniq r hr hid])]
    exact hck
  have hlinkgen : ∀ r0 ∈ (modifyRow c1 r'.identifier (fun _ => r1)).projects,
      r0.identifier = r'.identifier → r0.pluginIds = r'.pluginIds ∧
        r0.sampleIds = r'.sampleIds := by
    intro r0 hr0 hr0id
    obtain ⟨r3, hr3, hr3eq⟩ := List.mem_map.mp hr0
    by_cases h : r3.identifier = r'.identifier
    · rw [if_pos h] at hr3eq
      rw [← hr3eq]
      exact ⟨hplug1, hsamp1⟩
    · rw [if_neg h] at hr3eq
      rw [← hr3eq] at hr0id
      exact absurd hr0id h
  -- the sample fold is a no-op
  have hlinkS : ∀ q ∈ paths, ∃ sm,
      findSample (modifyRow c1 r'.identifier (fun _ => r1)) q = some sm ∧
      ∀ r0 ∈ (modifyRow c1 r'.identifier (fun _ => r1)).projects,
        r0.identifier = r'.identifier → sm.id ∈ r0.sampleIds := by
    intro q hq
    obtain ⟨sm, _, hfs, hsid⟩ := hsAtt q hq
    refine ⟨sm, hfs, ?_⟩
    intro r0 hr0 hr0id
    rw [(hlinkgen r0 hr0 hr0id).2]
    exact hsid
  obtain ⟨sB, hB, hBcat⟩ := update_samples_step_noop r'.identifier
    ⟨modifyRow c1 r'.identifier (fun _ => r1), c1⟩ r1 v root paths
    hfrA hmmp1 hx1 hsp hlinkS hckA
  have hBcat2 : sB.cat = modifyRow c1 r'.identifier (fun _ => r1) := hBcat
  -- the two plugin folds are no-ops
  have hfrB : findRowById sB.cat r'.identifier = some r1 := by
    rw [hBcat2]
    exact hfrA
  have hvB : ∀ nm ∈ vsts, ∃ pl, findPlugin sB.cat nm "VST" = some pl ∧
      ∀ r0 ∈ sB.cat.projects, r0.identifier = r'.identifier →
        pl.id ∈ r0.pluginIds := by
    rw [hBcat2]
    intro nm hnm
    obtain ⟨pl, _, hfp, hpid⟩ := hvAtt nm hnm
    refine ⟨pl, hfp, ?_⟩
    intro r0 hr0 hr0id
    rw [(hlinkgen r0 hr0 hr0id).1]
    exact hpid
  have h3B : ∀ nm ∈ v3s, ∃ pl, findPlugin sB.cat nm "VST3" = some pl ∧
      ∀ r0 ∈ sB.cat.projects, r0.identifier = r'.identifier →
        pl.id ∈ r0.pluginIds := by
    rw [hBcat2]
    intro nm hnm
    obtain ⟨pl, _, hfp, hpid⟩ := h3Att nm hnm
    refine ⟨pl, hfp, ?_⟩
    intro r0 hr0 hr0id
    rw [(hlinkgen r0 hr0 hr0id).1]
    exact hpid
  have hckB : commitCheck sB.cat = true := by
    rw [hBcat2]
    exact hckA
  obtain ⟨sC, hC, hCcat⟩ := update_plugins_step_noop inst r'.identifier sB r1 root
    vsts v3s hfrB hx1 hpn hvB h3B hckB
  have hcatC : sC.cat = modifyRow c1 r'.identifier (fun _ => r1) := by
    rw [hCcat]
    exact hBcat2
  -- phase 2 succeeds
  have hkey1 : keyOf r1.major_version r1.xml_root = some k := by
    rw [hmv1, hx1]
    exact hkey
  obtain ⟨r3, hP2⟩ := rowPhase2_success f r1 root ts k hkey1 hx1 hts
  obtain ⟨k2, root2, ts2, d, hk2, hroot2, hts2, hr3⟩ := rowPhase2_facts f r1 r3 hP2
  have hfrC : findRowById sC.cat r'.identifier = some r1 := by
    rw [hcatC]
    exact hfrA
  have hD := liftRowStep_success r'.identifier (rowPhase2 f) sC r1 r3 hfrC hP2
  -- shape of the final row
  have hid3 : r3.identifier = r'.identifier := by
    rw [hr3]
    exact hid1
  have hpath3 : r3.path = r'.path := by
    rw [hr3]
    exact hpath1
  have hplug3 : r3.pluginIds = r'.pluginIds := by
    rw [hr3]
    exact hplug1
  have hsamp3 : r3.sampleIds = r'.sampleIds := by
    rw [hr3]
    exact hsamp1
  -- the three in-place updates collapse
  have hstep1 : modifyRow (modifyRow c1 r'.identifier (fun _ => r1)) r'.identifier
      (fun _ => r3) = modifyRow c1 r'.identifier (fun _ => r3) :=
    modifyRow_comp_const c1 r'.identifier r1 hid1 (fun _ => r3)
  have hstep2 : modifyRow (modifyRow c1 r'.identifier (fun _ => r3)) r'.identifier
      (withHash f.hash) = modifyRow c1 r'.identifier (fun _ => withHash f.hash r3) :=
    modifyRow_comp_const c1 r'.identifier r3 hid3 (withHash f.hash)
  have hcatEq : modifyRow (modifyRow sC.cat r'.identifier (fun _ => r3)) r'.identifier
      (withHash f.hash) = modifyRow c1 r'.identifier (fun _ => withHash f.hash r3) := by
    rw [hcatC, hstep1, hstep2]
  -- the final commit passes
  have hccF : commitCheck (modifyRow c1 r'.identifier
      (fun _ => withHash f.hash r3)) = true := by
    rw [commitCheck_modifyRow_pres c1 r'.identifier (fun _ => withHash f.hash r3)
      (fun r hr hid => by
        show r3.identifier = r.identifier
        rw [hid3, hid])
      (fun r hr hid => by
        show some f.hash = r.file_hash
        rw [huniq r hr hid, hhash])]
    exact hck
  -- assemble
  refine ⟨modifyRow c1 r'.identifier (fun _ => withHash f.hash r3), ?_, rfl, rfl, ?_⟩
  · simp only [process_file, hfind, parse_all, hA, hB, hC, hD]
    have hCS : commitS
        { cat :=
            modifyRow (modifyRow sC.cat r'.identifier (fun _ => r3)) r'.identifier
              (withHash f.hash),
          committed := sC.committed } =
        some ⟨modifyRow c1 r'.identifier (fun _ => withHash f.hash r3),
              modifyRow c1 r'.identifier (fun _ => withHash f.hash r3)⟩ := by
      unfold commitS
      rw [hcatEq]
      rw [if_pos hccF]
    simp only [hCS]
  · refine ⟨withHash f.hash r3, ?_, ?_, ?_, ?_⟩
    · refine findRowByPath_modifyRow_const c1 p r' hfind hnodup (withHash f.hash r3) ?_
      show r3.path = p
      rw [hpath3, hpath]
    · show some f.hash = r'.file_hash
      rw [hhash]
    · exact hplug3
    · exact hsamp3

/-- A file whose content is serumXml, as first observed at p.als. -/
def c6File : ALSFile := ⟨"H6", some serumXml, some 1, some 2, some (11, 0, 0)⟩

/-- The committed catalog after the first reconciliation of p.als. -/
def c6Cat : Catalog := (process_file ["Serum"] 0 "p.als" c6File emptyCatalog).1

/-- The reconciled row at p.als. -/
def c6Row : ProjectRow := (findRowByPath c6Cat "p.als").getD (newRow 0 0 "p.als")

/-- C6 witness: after a real first pass over p.als, a second pass over the
unchanged file is a content no-op. -/
theorem C6_reconcile_unchanged_noop_witness :
    ∃ c2, process_file ["Serum"] 0 "p.als" c6File c6Cat = (c2, true) ∧
      c2.plugins = c6Cat.plugins ∧ c2.samples = c6Cat.samples ∧
      ∃ r2, findRowByPath c2 "p.als" = some r2 ∧ r2.file_hash = c6Row.file_hash ∧
        r2.pluginIds = c6Row.pluginIds ∧ r2.sampleIds = c6Row.sampleIds :=
  C6_reconcile_unchanged_noop ["Serum"] 0 "p.als" c6File c6Cat c6Row serumXml
    "Ableton Live 11.0.0" (11, 0, 0) ⟨1200, 10⟩ [] (4, ⟨1, 1⟩) "Unknown" [] [] ["Serum"]
    (by decide) rfl (by decide) rfl (by decide) rfl (by decide) (by decide)
    (by decide) (by decide) (by decide) (by decide) (by decide) (by decide)
    (by decide) (by decide) (by decide) (by decide)
